import Mathlib

/-!
# Verification of the query clustering & ranking core

Shallow embedding of `src/lib/cluster_rank.ts` (and the brand-affinity module
`src/lib/brand_affinity.ts`) of the company-query-insights repository.

Modelling conventions:
* JavaScript numbers that only carry data (search volumes, embedding vector
  components) are modelled as `ℚ` (every JS float is a rational number);
  computed scores that flow through `Math.log1p` / `Math.sqrt` live in `ℝ`.
* `x || 0` on an optional numeric field is `Option.getD · 0` (a present `0`
  and an absent value both yield `0`, exactly as in JS).
* External collaborators (embedding provider, LLM labeler) are parameters:
  `embedOf : String → Option (List ℚ)` models the cache/API of
  `createEmbeddings` (a miss/failure is `none`), `labelOf` models
  `labelCluster`.  No claim depends on the label text or on the
  cached-first reordering inside `createEmbeddings` (which is a permutation).
* `Array.prototype.sort(cmp)` (stable in JS) is modelled by a stable
  insertion sort `jsSortWith le` where `le a b` means `cmp a b ≤ 0`.
-/

namespace ClusterRank

open Classical List

/-! ## Generic helpers -/

/-- Stable insertion of `x` into `l`: `x` goes in front of the first `y`
with `le x y = true`.  Together with `jsSortWith` this models JavaScript's
stable `Array.prototype.sort`. -/
def insertSorted (le : α → α → Bool) (x : α) : List α → List α
  | [] => [x]
  | y :: ys => if le x y then x :: y :: ys else y :: insertSorted le x ys

/-- Stable sort by a boolean comparator; models `array.sort(cmp)` where
`le a b ↔ cmp a b ≤ 0`. -/
def jsSortWith (le : α → α → Bool) (l : List α) : List α :=
  l.foldr (insertSorted le) []

/-- `Math.round x` in JavaScript (half-up, toward +∞). -/
noncomputable def jsRound (x : ℝ) : ℤ := ⌊x + 1 / 2⌋

/-- `Math.round x` on rational data. -/
def jsRoundQ (x : ℚ) : ℤ := ⌊x + 1 / 2⌋

/-- ASCII lower-casing of one character (`String.prototype.toLowerCase`,
restricted to the ASCII range that the pipeline's query strings use). -/
def asciiLower (c : Char) : Char :=
  if 'A' ≤ c ∧ c ≤ 'Z' then Char.ofNat (c.toNat + 32) else c

/-- JS `\s`-style whitespace test for the characters that occur in queries. -/
def isWsChar (c : Char) : Bool :=
  c = ' ' || c = '\t' || c = '\n' || c = '\r'

/-- Characters stripped by the trailing-punctuation regex `/[?.!]+$/`. -/
def isTrailPunct (c : Char) : Bool :=
  c = '?' || c = '.' || c = '!'

def dropTrailingWhile (p : Char → Bool) (l : List Char) : List Char :=
  (l.reverse.dropWhile p).reverse

def trimChars (l : List Char) : List Char :=
  dropTrailingWhile isWsChar (l.dropWhile isWsChar)

/-- Collapse every run of whitespace to a single space (`/\s+/g → ' '`);
the boolean argument records whether the previous character was whitespace. -/
def collapseWsAux : Bool → List Char → List Char
  | _, [] => []
  | prevWs, c :: cs =>
      if isWsChar c then
        if prevWs then collapseWsAux true cs else ' ' :: collapseWsAux true cs
      else c :: collapseWsAux false cs

def collapseWs (l : List Char) : List Char :=
  collapseWsAux false l

/-- Split a single-spaced character list into words at `' '`. -/
def splitWords : List Char → List (List Char)
  | [] => [[]]
  | c :: cs =>
      if c = ' ' then [] :: splitWords cs
      else
        match splitWords cs with
        | [] => [[c]]
        | w :: ws => (c :: w) :: ws

/-- Collapse adjacent equal words; models the consecutive-duplicate-word
regex `/(\b\w+\b)( \1\b)+/gi` of `normalizeQuery` on already-lowercased,
single-spaced text. -/
def dedupAdjacent : List (List Char) → List (List Char)
  | [] => []
  | w :: ws =>
      match dedupAdjacent ws with
      | [] => [w]
      | w' :: ws' => if w = w' then w' :: ws' else w :: w' :: ws'

def joinWords : List (List Char) → List Char
  | [] => []
  | [w] => w
  | w :: ws => w ++ ' ' :: joinWords ws

/-- Substring test, models `String.prototype.includes`. -/
def listHasPrefix : List Char → List Char → Bool
  | [], _ => true
  | _ :: _, [] => false
  | p :: ps, c :: cs => p = c && listHasPrefix ps cs

def listContains (pat : List Char) : List Char → Bool
  | [] => listHasPrefix pat []
  | c :: cs => listHasPrefix pat (c :: cs) || listContains pat cs

def strContains (s pat : String) : Bool :=
  listContains pat.toList s.toList

/-! ## Data model (`src/types`, fields read by the clustering core) -/

/-- One enriched candidate query (`EnrichedQuery` in `src/types`), restricted
to the fields the clustering/ranking core reads.  `brand_affinity` is the
optional 0..1 score attached by the brand-affinity step. -/
structure EnrichedQuery where
  query : String
  source : String
  intent : Option String
  volume_monthly : Option ℚ
  has_volume : Bool
  volume_provider : Option String
  brand_affinity : Option ℝ

instance : Inhabited EnrichedQuery :=
  ⟨⟨"", "llm", none, none, false, none, none⟩⟩

structure NormalizedQuery extends EnrichedQuery where
  query_original : String
  query_normalized : String

instance : Inhabited NormalizedQuery := ⟨⟨default, "", ""⟩⟩

structure QueryWithEmbedding extends NormalizedQuery where
  embedding : Option (List ℚ)

instance : Inhabited QueryWithEmbedding := ⟨⟨default, none⟩⟩

structure ScoredQuery extends QueryWithEmbedding where
  volume_score : ℝ
  relevance_score : ℝ
  source_bonus : ℝ
  intent_weight : ℝ
  query_score : ℝ
  confidence : ℝ

instance : Inhabited ScoredQuery := ⟨⟨default, 0, 0, 0, 0, 0, 0⟩⟩

structure ClusterResult where
  topic_id : String
  queries : List ScoredQuery
  centroid : Option (List ℚ)

structure QueryResult where
  query : String
  intent : String
  volume_monthly : Option ℚ
  has_volume : Bool
  sources : List String
  confidence : ℝ
  query_score : ℝ

structure Topic where
  topic_id : String
  topic : String
  topic_score : ℚ
  confidence : ℝ
  volume_coverage : ℚ
  top_queries : List QueryResult

/-! ## Step 1: Normalize + Dedupe (`normalizeQuery`, `normalizeAndDedupe`) -/

/-- `normalizeQuery`: lowercase, trim, strip trailing `?.!`, collapse
whitespace runs, collapse consecutive duplicate words, trim. -/
def normalizeQuery (query : String) : String :=
  let cs := query.toList.map asciiLower
  let cs := trimChars cs
  let cs := dropTrailingWhile isTrailPunct cs
  let cs := collapseWs cs
  let cs := joinWords (dedupAdjacent (splitWords cs))
  ⟨trimChars cs⟩

/-- `q.volume_monthly || 0` (JS: an absent value and a present `0` both
give `0`). -/
def demandKey (q : EnrichedQuery) : ℚ :=
  q.volume_monthly.getD 0

def mkNormalized (q : EnrichedQuery) (norm : String) : NormalizedQuery :=
  { toEnrichedQuery := q, query_original := q.query, query_normalized := norm }

/-- `Map.prototype.get` on the insertion-ordered association list. -/
def mapFind (m : List (String × NormalizedQuery)) (k : String) :
    Option NormalizedQuery :=
  (m.find? (fun e => e.1 = k)).map (·.2)

/-- `Map.prototype.set`: update in place if the key exists (keeping its
insertion position), else append. -/
def mapSet (k : String) (v : NormalizedQuery) :
    List (String × NormalizedQuery) → List (String × NormalizedQuery)
  | [] => [(k, v)]
  | e :: m => if e.1 = k then (k, v) :: m else e :: mapSet k v m

/-- The body of the `for` loop of `normalizeAndDedupe`. -/
def dedupeStep (m : List (String × NormalizedQuery)) (q : EnrichedQuery) :
    List (String × NormalizedQuery) :=
  let normalized := normalizeQuery q.query
  if normalized = "" then m
  else
    match mapFind m normalized with
    | none => mapSet normalized (mkNormalized q normalized) m
    | some existing =>
        if demandKey q > demandKey existing.toEnrichedQuery then
          mapSet normalized (mkNormalized q normalized) m
        else m

/-- `normalizeAndDedupe`: one surviving record per normalized text, empty
normalizations dropped, survivor kept by the `(volume_monthly || 0)`
comparison. -/
def normalizeAndDedupe (queries : List EnrichedQuery) : List NormalizedQuery :=
  (queries.foldl dedupeStep []).map (·.2)

/-! ## Step 2: embeddings (`createEmbeddings`), collaborator as parameter -/

/-- `createEmbeddings`, with the cache/OpenAI collaborator abstracted into
`embedOf` (`none` = no key / API failure / missing response item). -/
def createEmbeddings (embedOf : String → Option (List ℚ))
    (queries : List NormalizedQuery) : List QueryWithEmbedding :=
  queries.map (fun q =>
    { toNormalizedQuery := q, embedding := embedOf q.query_normalized })

/-! ## Similarity (`cosineSimilarity`) -/

/-- The `dotProduct` accumulator of `cosineSimilarity`'s loop. -/
def dotProduct (a b : List ℚ) : ℚ :=
  ((a.zip b).map (fun p => p.1 * p.2)).sum

/-- The `normA` / `normB` accumulators of `cosineSimilarity`'s loop. -/
def sumSquares (a : List ℚ) : ℚ :=
  (a.map (fun x => x * x)).sum

/-- `cosineSimilarity`: returns 0 on length mismatch, empty vectors, or a
non-positive denominator; otherwise `dot / (√normA * √normB)`. -/
noncomputable def cosineSimilarity (a b : List ℚ) : ℝ :=
  if a.length ≠ b.length ∨ a.length = 0 then 0
  else
    let denominator : ℝ := Real.sqrt (sumSquares a) * Real.sqrt (sumSquares b)
    if denominator > 0 then (dotProduct a b : ℝ) / denominator else 0

/-! ## Step 5: scoring (`calculateQueryScores`, `calculateQueryConfidence`) -/

/-- `intent || 'informational'` (an absent or empty intent is falsy). -/
def jsIntentOf (intent : Option String) : String :=
  match intent with
  | some i => if i = "" then "informational" else i
  | none => "informational"

/-- `getIntentWeight`: fixed lookup table with default 0.5. -/
noncomputable def getIntentWeight (intent : String) : ℝ :=
  if intent = "transactional" then 1.0
  else if intent = "navigational" then 0.9
  else if intent = "comparison" then 0.8
  else if intent = "discovery" then 0.7
  else if intent = "informational" then 0.6
  else if intent = "troubleshooting" then 0.5
  else 0.5

def clearIntents : List String := ["transactional", "navigational"]

/-- `query.intent && clearIntents.includes(query.intent)`. -/
def isClearIntent (intent : Option String) : Bool :=
  match intent with
  | some i => decide (i ≠ "") && clearIntents.contains i
  | none => false

/-- The additive confidence of `calculateQueryConfidence` before the final
`Math.min(·, 1)` cap. -/
noncomputable def rawQueryConfidence (q : QueryWithEmbedding) : ℝ :=
  0.2 + (if q.has_volume then 0.2 else 0)
      + (if q.source = "paa" then 0.1 else 0)
      + (if isClearIntent q.intent then 0.1 else 0)

/-- `calculateQueryConfidence`. -/
noncomputable def calculateQueryConfidence (q : QueryWithEmbedding) : ℝ :=
  min (rawQueryConfidence q) 1

/-- `Math.max(...queries.map(q => q.volume_monthly || 0), 1)`. -/
def maxVolume (queries : List QueryWithEmbedding) : ℚ :=
  (queries.map (fun q => demandKey q.toEnrichedQuery)).foldr max 1

/-- Truthiness of `q.has_volume && q.volume_monthly` (a present `0` volume
is falsy). -/
def hasVolumeValue (q : EnrichedQuery) : Bool :=
  q.has_volume && (match q.volume_monthly with
                   | some v => decide (v ≠ 0)
                   | none => false)

noncomputable def log1p (x : ℚ) : ℝ := Real.log (1 + (x : ℝ))

/-- The `volumeScore` branch of `calculateQueryScores`. -/
noncomputable def volumeScoreOf (q : EnrichedQuery) (maxV : ℚ) : ℝ :=
  if hasVolumeValue q then log1p (demandKey q) / log1p maxV else 0

/-- The `relevanceScore` branch of `calculateQueryScores`: rescaled cosine
when both vectors are available and non-empty, else the neutral 0.5. -/
noncomputable def relevanceScoreOf (embedding : Option (List ℚ))
    (companyEmbedding : List ℚ) : ℝ :=
  match embedding with
  | some e =>
      if e.length > 0 ∧ companyEmbedding.length > 0 then
        (cosineSimilarity e companyEmbedding + 1) / 2
      else 0.5
  | none => 0.5

/-- The weighted sum that `calculateQueryScores` assigns to `query_score`:
volume dominates, the other three are tiny tie-breakers. -/
noncomputable def compositeScore (volumeScore relevanceScore sourceBonus intentWeight : ℝ) : ℝ :=
  volumeScore + 0.0005 * relevanceScore + 0.0002 * sourceBonus + 0.0002 * intentWeight

/-- The body of `calculateQueryScores`'s `map`. -/
noncomputable def scoreQuery (maxV : ℚ) (companyEmbedding : List ℚ)
    (q : QueryWithEmbedding) : ScoredQuery :=
  let volumeScore := volumeScoreOf q.toEnrichedQuery maxV
  let relevanceScore := relevanceScoreOf q.embedding companyEmbedding
  let sourceBonus : ℝ := if q.source = "paa" then 1.0 else 0.0
  let intentWeight := getIntentWeight (jsIntentOf q.intent)
  { toQueryWithEmbedding := q
    volume_score := volumeScore
    relevance_score := relevanceScore
    source_bonus := sourceBonus
    intent_weight := intentWeight
    query_score := compositeScore volumeScore relevanceScore sourceBonus intentWeight
    confidence := calculateQueryConfidence q }

/-- `calculateQueryScores`. -/
noncomputable def calculateQueryScores (queries : List QueryWithEmbedding)
    (companyEmbedding : List ℚ) : List ScoredQuery :=
  queries.map (scoreQuery (maxVolume queries) companyEmbedding)

/-! ## Step 3: clustering -/

/-- Truthiness of `q.embedding && q.embedding.length > 0`. -/
def hasEmbedding (q : ScoredQuery) : Bool :=
  match q.embedding with
  | some e => !e.isEmpty
  | none => false

/-- `calculateCentroid`: arithmetic mean of the member vectors. -/
def calculateCentroid (queries : List ScoredQuery) : List ℚ :=
  let embeddings := (queries.filterMap (fun q => q.embedding)).filter
    (fun e => e.length > 0)
  match embeddings with
  | [] => []
  | e0 :: _ =>
      let dim := e0.length
      let sums := embeddings.foldl
        (fun acc emb => (List.range dim).map (fun i => acc.getD i 0 + emb.getD i 0))
        (List.replicate dim 0)
      sums.map (fun x => x / embeddings.length)

/-- The comparator of `clusterByEmbeddings`' seed ordering:
`(a, b) => queries[b].query_score - queries[a].query_score ≤ 0`. -/
noncomputable def scoreDescLE (queries : List ScoredQuery) (a b : ℕ) : Bool :=
  decide ((queries.getD b default).query_score ≤ (queries.getD a default).query_score)

/-- Indices sorted by `query_score` descending (seeding order). -/
noncomputable def sortedIndices (queries : List ScoredQuery) : List ℕ :=
  jsSortWith (scoreDescLE queries) (List.range queries.length)

structure EmbedState where
  assigned : List ℕ
  clusters : List ClusterResult
  stopped : Bool

/-- The inner scan of a seed's cluster: attach every unassigned embedded
query at cosine distance `< 0.25` from the seed. -/
noncomputable def gatherStep (queries : List ScoredQuery) (e : List ℚ)
    (acc : List ScoredQuery × List ℕ) (i : ℕ) : List ScoredQuery × List ℕ :=
  if acc.2.contains i then acc
  else
    match (queries.getD i default).embedding with
    | none => acc
    | some ce =>
        if ce.isEmpty then acc
        else if 1 - cosineSimilarity e ce < 0.25 then
          (acc.1 ++ [queries.getD i default], acc.2 ++ [i])
        else acc

/-- The singleton-cluster state built for a seed without a usable
embedding (the `continue` path, which skips the break check). -/
def singletonState (queries : List ScoredQuery) (st : EmbedState)
    (seedIdx : ℕ) : EmbedState :=
  { st with
    assigned := st.assigned ++ [seedIdx]
    clusters := st.clusters ++
      [⟨"t" ++ toString (st.clusters.length + 1), [queries.getD seedIdx default], none⟩] }

/-- The state built for a seed with a usable embedding: run the inner scan,
push the new cluster with its centroid, and set the break flag iff the
cluster count reached 15. -/
noncomputable def embedSeedState (queries : List ScoredQuery) (st : EmbedState)
    (seedIdx : ℕ) (e : List ℚ) : EmbedState :=
  { assigned := ((List.range queries.length).foldl (gatherStep queries e)
      ([queries.getD seedIdx default], st.assigned ++ [seedIdx])).2
    clusters := st.clusters ++
      [⟨"t" ++ toString (st.clusters.length + 1),
        ((List.range queries.length).foldl (gatherStep queries e)
          ([queries.getD seedIdx default], st.assigned ++ [seedIdx])).1,
        some (calculateCentroid (((List.range queries.length).foldl (gatherStep queries e)
          ([queries.getD seedIdx default], st.assigned ++ [seedIdx])).1))⟩]
    stopped := decide ((st.clusters.length + 1) ≥ 15) }

/-- One iteration of the seed loop of `clusterByEmbeddings`.  A seed without
a (non-empty) embedding becomes its own singleton cluster via `continue`,
which skips the `clusters.length >= 15` break check; only the embedded-seed
path sets `stopped`. -/
noncomputable def seedStep (queries : List ScoredQuery) (st : EmbedState)
    (seedIdx : ℕ) : EmbedState :=
  if st.stopped then st
  else if st.assigned.contains seedIdx then st
  else
    match (queries.getD seedIdx default).embedding with
    | none => singletonState queries st seedIdx
    | some e =>
        if e.isEmpty then singletonState queries st seedIdx
        else embedSeedState queries st seedIdx e

/-- The best-centroid search of the leftover loop (`bestSimilarity` starts
at −1; strictly greater similarity wins, so the first cluster wins ties). -/
noncomputable def bestClusterFor (clusters : List ClusterResult) (e : List ℚ) :
    Option ℕ × ℝ :=
  clusters.enum.foldl
    (fun acc p =>
      match p.2.centroid with
      | none => acc
      | some cen =>
          let sim := cosineSimilarity e cen
          if sim > acc.2 then (some p.1, sim) else acc)
    (none, -1)

/-- `cluster.queries.push(query)` on the `j`-th cluster. -/
def appendToCluster : List ClusterResult → ℕ → ScoredQuery → List ClusterResult
  | [], _, _ => []
  | c :: cs, 0, q => { c with queries := c.queries ++ [q] } :: cs
  | c :: cs, j + 1, q => c :: appendToCluster cs j q

/-- `clusters.reduce((a, b) => a.queries.length > b.queries.length ? a : b)`
as an index (later clusters win ties, as in `reduce`). -/
def largestIdx (clusters : List ClusterResult) : ℕ :=
  ((clusters.enum.foldl
      (fun acc p =>
        match acc with
        | none => some p
        | some a => if a.2.queries.length > p.2.queries.length then some a else some p)
      none).map (·.1)).getD 0

/-- The `(bestCluster, bestSimilarity)` pair an unassigned query sees in
the leftover loop (the search runs only for a non-empty embedding). -/
noncomputable def leftoverBest (clusters : List ClusterResult)
    (query : ScoredQuery) : Option ℕ × ℝ :=
  match query.embedding with
  | some e => if e.isEmpty then (none, -1) else bestClusterFor clusters e
  | none => (none, -1)

/-- How the leftover loop places one unassigned query: join the most
similar centroid (if similarity `> 0.5`), else a fresh cluster (if under
the cap), else the largest cluster. -/
noncomputable def placeLeftover (clusters : List ClusterResult)
    (query : ScoredQuery) : List ClusterResult :=
  match (leftoverBest clusters query).1 with
  | some j =>
      if (leftoverBest clusters query).2 > 0.5 then appendToCluster clusters j query
      else if clusters.length < 15 then
        clusters ++ [⟨"t" ++ toString (clusters.length + 1), [query], none⟩]
      else appendToCluster clusters (largestIdx clusters) query
  | none =>
      if clusters.length < 15 then
        clusters ++ [⟨"t" ++ toString (clusters.length + 1), [query], none⟩]
      else appendToCluster clusters (largestIdx clusters) query

/-- One iteration of the leftover loop of `clusterByEmbeddings` (it never
touches `assigned`, exactly as in the source). -/
noncomputable def remainderStep (queries : List ScoredQuery) (st : EmbedState)
    (i : ℕ) : EmbedState :=
  if st.assigned.contains i then st
  else { st with clusters := placeLeftover st.clusters (queries.getD i default) }

/-- `clusterByEmbeddings`: greedy seed clustering in `query_score` order,
then the leftover loop. -/
noncomputable def clusterByEmbeddings (queries : List ScoredQuery) : List ClusterResult :=
  let afterSeeds := (sortedIndices queries).foldl (seedStep queries)
    ⟨[], [], false⟩
  ((List.range queries.length).foldl (remainderStep queries) afterSeeds).clusters

/-! ## Keyword fallback clustering (`clusterByKeywords`) -/

/-- The fixed, ordered keyword table (`Object.entries` insertion order). -/
def topicKeywords : List (String × List String) :=
  [("returns", ["return", "refund", "exchange", "money back"]),
   ("shipping", ["shipping", "delivery", "ship", "arrive", "tracking", "order"]),
   ("sizing", ["size", "sizing", "fit", "small", "large", "tight", "loose"]),
   ("discounts", ["discount", "code", "coupon", "promo", "sale", "deal", "black friday"]),
   ("stores", ["store", "location", "near me", "where", "buy", "shop"]),
   ("quality", ["quality", "worth", "review", "good", "bad", "compare", "vs"]),
   ("products", ["leggings", "shorts", "shirt", "hoodie", "jacket", "bra"]),
   ("account", ["account", "login", "password", "sign in", "app"])]

/-- The first bucket (in table order) one of whose keywords occurs in the
normalized query, if any. -/
def findBucket (lowerQuery : String) : Option String :=
  (topicKeywords.find? (fun e => e.2.any (fun kw => strContains lowerQuery kw))).map (·.1)

/-- `Map.get(topic).push(query)` with insertion-ordered keys. -/
def bucketAdd (k : String) (q : ScoredQuery) :
    List (String × List ScoredQuery) → List (String × List ScoredQuery)
  | [] => [(k, [q])]
  | e :: m => if e.1 = k then (e.1, e.2 ++ [q]) :: m else e :: bucketAdd k q m

/-- One iteration of `clusterByKeywords`' loop: first matching bucket wins,
non-matching queries go to `unclustered`. -/
def keywordStep (st : List (String × List ScoredQuery) × List ScoredQuery)
    (q : ScoredQuery) : List (String × List ScoredQuery) × List ScoredQuery :=
  match findBucket q.query_normalized with
  | some topic => (bucketAdd topic q st.1, st.2)
  | none => (st.1, st.2 ++ [q])

/-- `clusterByKeywords`: deterministic keyword buckets plus a single
catch-all cluster of unmatched queries. -/
def clusterByKeywords (queries : List ScoredQuery) : List ClusterResult :=
  let st := queries.foldl keywordStep ([], [])
  let results := st.1.enum.map
    (fun p => ClusterResult.mk ("t" ++ toString (p.1 + 1)) p.2.2 none)
  if st.2.isEmpty then results
  else results ++ [ClusterResult.mk ("t" ++ toString (results.length + 1)) st.2 none]

/-- Mode dispatch: vector clustering iff some query has a non-empty
embedding, else the keyword fallback. -/
noncomputable def clusterQueriesWithEmbeddings (queries : List ScoredQuery) :
    List ClusterResult :=
  if queries.any hasEmbedding then clusterByEmbeddings queries
  else clusterByKeywords queries

/-! ## Steps 4 & 6: `labelAndRankClusters` -/

/-- The primary in-topic sort key: `has_volume ? (volume_monthly || 0) : -1`. -/
def memberSortKey (q : ScoredQuery) : ℚ :=
  if q.has_volume then demandKey q.toEnrichedQuery else -1

/-- The in-topic comparator: demand (with the −1 sentinel) descending, then
`query_score` descending. -/
noncomputable def memberLE (a b : ScoredQuery) : Bool :=
  if memberSortKey b = memberSortKey a then decide (b.query_score ≤ a.query_score)
  else decide (memberSortKey b < memberSortKey a)

/-- `formatQueryResult`. -/
noncomputable def formatQueryResult (q : ScoredQuery) : QueryResult :=
  let sources :=
    (if q.source = "paa" then ["discovered:paa"]
     else if q.source = "llm" then ["generated:llm"] else []) ++
    (match q.volume_provider with
     | some p => if p = "" then [] else [p]
     | none => [])
  { query := if q.query_original = "" then q.query else q.query_original
    intent := jsIntentOf q.intent
    volume_monthly := q.volume_monthly
    has_volume := q.has_volume
    sources := sources
    confidence := (jsRound (q.confidence * 100) : ℝ) / 100
    query_score := (jsRound (q.query_score * 100) : ℝ) / 100 }

/-- The loop body of `labelAndRankClusters`, with the LLM/extractive labeler
abstracted into `labelOf`. -/
noncomputable def mkTopic (labelOf : List ScoredQuery → String)
    (cluster : ClusterResult) : Topic :=
  let sorted := jsSortWith memberLE cluster.queries
  let topQueries := sorted.take 10
  let topicScore := ((sorted.take 5).map (fun q => demandKey q.toEnrichedQuery)).sum
  let withVolume := (sorted.filter (fun q => q.has_volume)).length
  let volumeCoverage : ℚ :=
    if sorted.length > 0 then (withVolume : ℚ) / (sorted.length : ℚ) else 0
  let avgConfidence : ℝ :=
    if topQueries.length > 0 then
      ((topQueries.map (fun q => q.confidence)).sum) / (topQueries.length : ℝ)
    else 0.2
  { topic_id := cluster.topic_id
    topic := labelOf topQueries
    topic_score := topicScore
    confidence := (jsRound (avgConfidence * 100) : ℝ) / 100
    volume_coverage := (jsRoundQ (volumeCoverage * 100) : ℚ) / 100
    top_queries := topQueries.map formatQueryResult }

/-- `topics.sort((a, b) => b.topic_score - a.topic_score)`'s comparator. -/
def topicLE (a b : Topic) : Bool :=
  decide (b.topic_score ≤ a.topic_score)

/-- `labelAndRankClusters`: build a topic per cluster, sort by `topic_score`
descending, return the top 10. -/
noncomputable def labelAndRankClusters (labelOf : List ScoredQuery → String)
    (clusters : List ClusterResult) : List Topic :=
  (jsSortWith topicLE (clusters.map (mkTopic labelOf))).take 10

/-- `clusterAndRank`: the full pipeline (normalize/dedupe, embed, score,
cluster, label/rank), collaborators as parameters. -/
noncomputable def clusterAndRank (embedOf : String → Option (List ℚ))
    (companyEmbedding : List ℚ) (labelOf : List ScoredQuery → String)
    (enrichedQueries : List EnrichedQuery) : List Topic :=
  labelAndRankClusters labelOf
    (clusterQueriesWithEmbeddings
      (calculateQueryScores
        (createEmbeddings embedOf (normalizeAndDedupe enrichedQueries))
        companyEmbedding))

/-! ## Brand affinity (`src/lib/brand_affinity.ts`) -/

def clamp01 (x : ℝ) : ℝ := max 0 (min 1 x)

/-- `computeBrandAffinityScore`: `0.65 * rank_score + 0.35 * mentions_score`,
clamped to `[0, 1]`. -/
noncomputable def computeBrandAffinityScore (domainRank : Option ℕ)
    (mentionCount : ℕ) : ℝ :=
  let rankScore : ℝ :=
    match domainRank with
    | some r => if r ≠ 0 then 1 / Real.sqrt (max 1 (r : ℝ)) else 0
    | none => 0
  let mentionsScore : ℝ := min 1 ((mentionCount : ℝ) / 3)
  clamp01 (0.65 * rankScore + 0.35 * mentionsScore)

/-- Modelled from the spec: no code in the repository applies a gating
multiplier to `query_score` — `addBrandAffinityToQueries` only attaches the
affinity fields.  This is §4.3's gating factor
`floor + (1 - floor) * brand_affinity`, stated from the spec's words so that
its range can be checked. -/
def gatingFactor (floor brand_affinity : ℝ) : ℝ :=
  floor + (1 - floor) * brand_affinity

/-! ## Cluster-membership machinery -/

/-- All queries across a cluster list. -/
def clustersFlat (cs : List ClusterResult) : List ScoredQuery :=
  (cs.map (·.queries)).flatten

def elemAt (qs : List ScoredQuery) (i : ℕ) : ScoredQuery :=
  qs.getD i default

/-- The running invariant of the seed loop: the clusters' members are
exactly the queries at the assigned indices; assigned indices are distinct
and in range; no cluster is empty. -/
def SeedInv (qs : List ScoredQuery) (st : EmbedState) : Prop :=
  List.Perm (clustersFlat st.clusters) (st.assigned.map (elemAt qs)) ∧
  st.assigned.Nodup ∧ (∀ i ∈ st.assigned, i < qs.length) ∧
  (∀ c ∈ st.clusters, c.queries ≠ [])

/-- The cap invariant of the seed loop: at most 15 clusters, strictly
fewer while the break flag is unset.  It holds as long as every seed has a
usable embedding (the singleton path breaks it). -/
def CapInv (st : EmbedState) : Prop :=
  st.clusters.length ≤ 15 ∧ (st.stopped = false → st.clusters.length < 15)

/-! ## Keyword-mode machinery -/

def bucketsFlat (m : List (String × List ScoredQuery)) : List ScoredQuery :=
  (m.map (·.2)).flatten

/-- The running invariant of the keyword loop: bucket names are distinct
keys of the fixed table and every bucket is non-empty. -/
def BucketInv (st : List (String × List ScoredQuery) × List ScoredQuery) : Prop :=
  (st.1.map (·.1)).Nodup ∧
  (∀ e ∈ st.1, e.1 ∈ topicKeywords.map (·.1) ∧ e.2 ≠ [])

/-! ## Dedupe characterization (survivor per normalized text) -/

/-- The collision resolution of `normalizeAndDedupe` at the record level:
replace the current survivor only on strictly greater `(volume_monthly || 0)`. -/
def pickWinner (cur : Option EnrichedQuery) (q : EnrichedQuery) :
    Option EnrichedQuery :=
  match cur with
  | none => some q
  | some e => if demandKey q > demandKey e then some q else some e

/-- Spec-side survivor, following §4.1's words with the (amended) `0`
sentinel: among colliding records, a later record replaces the survivor
only when its demand is strictly greater, so the first-seen record wins
ties. -/
def specSurvivor : List EnrichedQuery → Option EnrichedQuery
  | [] => none
  | q :: g =>
      match specSurvivor g with
      | none => some q
      | some w => if demandKey w > demandKey q then some w else some q

/-- Merging an already-selected survivor with the survivor of the later
records. -/
def mergeWinner (w : EnrichedQuery) (o : Option EnrichedQuery) : EnrichedQuery :=
  match o with
  | none => w
  | some v => if demandKey v > demandKey w then v else w

/-- One update of the surviving record for a fixed normalized text. -/
def dedupeUpdate (t : String) (cur : Option NormalizedQuery)
    (q : EnrichedQuery) : Option NormalizedQuery :=
  match cur with
  | none => some (mkNormalized q t)
  | some e =>
      if demandKey q > demandKey e.toEnrichedQuery then some (mkNormalized q t)
      else some e

/-- Well-formedness of the dedupe map: keys are distinct and each stored
record's normalized text is its key. -/
def MapWF (m : List (String × NormalizedQuery)) : Prop :=
  (m.map (·.1)).Nodup ∧ ∀ e ∈ m, e.2.query_normalized = e.1

/-! ## Concrete records used by scenarios and counterexamples -/

/-- A minimal enriched query: LLM-generated, no intent, no demand data. -/
def mkPlainQuery (s : String) : EnrichedQuery :=
  ⟨s, "llm", none, none, false, none, none⟩

/-- C3 scenario input: first-seen record with absent demand. -/
def qAbsentDemand : EnrichedQuery :=
  ⟨"gymshark return policy?", "llm", none, none, false, none, none⟩

/-- C3 scenario input: colliding record with present-but-zero demand. -/
def qZeroDemand : EnrichedQuery :=
  ⟨"Gymshark return policy", "paa", none, some 0, true, none, none⟩

/-- C1 counterexample: a query carrying `brand_affinity = 0.0`. -/
def qGated : QueryWithEmbedding :=
  { toNormalizedQuery :=
      { toEnrichedQuery := ⟨"gymshark leggings", "llm", none, none, false, none, some 0⟩
        query_original := "gymshark leggings"
        query_normalized := "gymshark leggings" }
    embedding := none }

/-- Sets the brand-affinity field of a query, as `addBrandAffinityToQueries`
does when it spreads the affinity fields onto a record. -/
def setAffinity (a : Option ℝ) (q : QueryWithEmbedding) : QueryWithEmbedding :=
  { q with brand_affinity := a }

/-- A scored query without demand data or embedding (all score fields 0). -/
def noEmbQ (s : String) : ScoredQuery :=
  { query := s, source := "llm", intent := none, volume_monthly := none,
    has_volume := false, volume_provider := none, brand_affinity := none,
    query_original := s, query_normalized := s, embedding := none,
    volume_score := 0, relevance_score := 0, source_bonus := 0,
    intent_weight := 0, query_score := 0, confidence := 0 }

/-- Like `noEmbQ` but with a one-dimensional embedding. -/
def embQ (s : String) : ScoredQuery :=
  { noEmbQ s with embedding := some [1] }

/-- C4 counterexample batch: 15 queries without embeddings plus one with. -/
def capBatch : List ScoredQuery :=
  [noEmbQ "q0", noEmbQ "q1", noEmbQ "q2", noEmbQ "q3", noEmbQ "q4",
   noEmbQ "q5", noEmbQ "q6", noEmbQ "q7", noEmbQ "q8", noEmbQ "q9",
   noEmbQ "q10", noEmbQ "q11", noEmbQ "q12", noEmbQ "q13", noEmbQ "q14",
   embQ "q15"]

/-- C7 scenario: demand 18200. -/
def qDemandHigh : ScoredQuery :=
  { noEmbQ "query one" with volume_monthly := some 18200, has_volume := true }

/-- C7 scenario: absent demand (`has_volume = false`). -/
def qDemandAbsent : ScoredQuery := noEmbQ "query two"

/-- C7 scenario: demand 5400. -/
def qDemandMid : ScoredQuery :=
  { noEmbQ "query three" with volume_monthly := some 5400, has_volume := true }

/-- Replaces a record's demand value, everything else fixed. -/
def setVolume (w : ℚ) (q : QueryWithEmbedding) : QueryWithEmbedding :=
  { q with volume_monthly := some w }

/-- C2 counterexample batch: 12 distinct queries (the last one will get an
embedding), which produce 12 singleton clusters, more than the 10 topics
the pipeline emits. -/
def c2Batch : List EnrichedQuery :=
  [mkPlainQuery "alpha", mkPlainQuery "bravo", mkPlainQuery "charlie",
   mkPlainQuery "delta", mkPlainQuery "echo", mkPlainQuery "foxtrot",
   mkPlainQuery "golf", mkPlainQuery "hotel", mkPlainQuery "india",
   mkPlainQuery "juliett", mkPlainQuery "kilo", mkPlainQuery "lima"]

/-- The embedding collaborator for the C2 counterexample: only "lima" has a
vector. -/
def c2Embed (s : String) : Option (List ℚ) :=
  if s = "lima" then some [1] else none

/-- `createEmbeddings c2Embed (normalizeAndDedupe c2Batch)`, spelled out. -/
def c2With : List QueryWithEmbedding :=
  [⟨mkNormalized (mkPlainQuery "alpha") "alpha", none⟩,
   ⟨mkNormalized (mkPlainQuery "bravo") "bravo", none⟩,
   ⟨mkNormalized (mkPlainQuery "charlie") "charlie", none⟩,
   ⟨mkNormalized (mkPlainQuery "delta") "delta", none⟩,
   ⟨mkNormalized (mkPlainQuery "echo") "echo", none⟩,
   ⟨mkNormalized (mkPlainQuery "foxtrot") "foxtrot", none⟩,
   ⟨mkNormalized (mkPlainQuery "golf") "golf", none⟩,
   ⟨mkNormalized (mkPlainQuery "hotel") "hotel", none⟩,
   ⟨mkNormalized (mkPlainQuery "india") "india", none⟩,
   ⟨mkNormalized (mkPlainQuery "juliett") "juliett", none⟩,
   ⟨mkNormalized (mkPlainQuery "kilo") "kilo", none⟩,
   ⟨mkNormalized (mkPlainQuery "lima") "lima", some [1]⟩]

theorem insertSorted_perm (le : α → α → Bool) (x : α) (l : List α) :
    List.Perm (insertSorted le x l) (x :: l) := by
  induction l with
  | nil => exact List.Perm.refl _
  | cons y ys ih =>
      rw [insertSorted]
      by_cases h : le x y = true
      · rw [if_pos h]
      · rw [if_neg h]
        exact (List.Perm.cons y ih).trans (List.Perm.swap x y ys)

theorem jsSortWith_perm (le : α → α → Bool) (l : List α) :
    List.Perm (jsSortWith le l) l := by
  induction l with
  | nil => simp [jsSortWith]
  | cons x xs ih =>
      exact (insertSorted_perm le x (jsSortWith le xs)).trans (List.Perm.cons x ih)

theorem insertSorted_of_le_head (le : α → α → Bool) (x : α) (l : List α)
    (h : ∀ y ∈ l, le x y = true) : insertSorted le x l = x :: l := by
  cases l with
  | nil => rfl
  | cons y ys => simp [insertSorted, h y (by simp)]

/-- If the comparator accepts every ordered pair of elements of `l`
(e.g. all sort keys are equal), the stable sort is the identity. -/
theorem jsSortWith_of_all (le : α → α → Bool) (l : List α)
    (h : ∀ x ∈ l, ∀ y ∈ l, le x y = true) : jsSortWith le l = l := by
  induction l with
  | nil => rfl
  | cons x xs ih =>
      have hxs : jsSortWith le xs = xs :=
        ih (fun a ha b hb => h a (by simp [ha]) b (by simp [hb]))
      simp only [jsSortWith, List.foldr_cons]
      show insertSorted le x (jsSortWith le xs) = x :: xs
      rw [hxs]
      exact insertSorted_of_le_head le x xs
        (fun y hy => h x (by simp) y (by simp [hy]))

theorem insertSorted_sorted (le : α → α → Bool)
    (htrans : ∀ a b c, le a b = true → le b c = true → le a c = true)
    (htot : ∀ a b, le a b = true ∨ le b a = true)
    (x : α) (l : List α) (hl : l.Pairwise (fun a b => le a b = true)) :
    (insertSorted le x l).Pairwise (fun a b => le a b = true) := by
  induction l with
  | nil => simp [insertSorted]
  | cons y ys ih =>
      rcases List.pairwise_cons.mp hl with ⟨hy, hys⟩
      rw [insertSorted]
      by_cases h : le x y = true
      · rw [if_pos h]
        refine List.pairwise_cons.mpr ⟨?_, hl⟩
        intro z hz
        rcases List.mem_cons.mp hz with rfl | hz
        · exact h
        · exact htrans x y z h (hy z hz)
      · rw [if_neg h]
        refine List.pairwise_cons.mpr ⟨?_, ih hys⟩
        intro z hz
        have hz' := (insertSorted_perm le x ys).mem_iff.mp hz
        rcases List.mem_cons.mp hz' with rfl | hz'
        · rcases htot z y with hxy | hyx
          · exact absurd hxy h
          · exact hyx
        · exact hy z hz'

/-- With a transitive and total comparator, `jsSortWith` produces a list
sorted (pairwise) by the comparator. -/
theorem jsSortWith_sorted (le : α → α → Bool)
    (htrans : ∀ a b c, le a b = true → le b c = true → le a c = true)
    (htot : ∀ a b, le a b = true ∨ le b a = true)
    (l : List α) : (jsSortWith le l).Pairwise (fun a b => le a b = true) := by
  induction l with
  | nil => simp [jsSortWith]
  | cons x xs ih => exact insertSorted_sorted le htrans htot x (jsSortWith le xs) ih

theorem clustersFlat_append (cs cs' : List ClusterResult) :
    clustersFlat (cs ++ cs') = clustersFlat cs ++ clustersFlat cs' := by
  simp [clustersFlat]

theorem appendToCluster_length (cs : List ClusterResult) (j : ℕ) (q : ScoredQuery) :
    (appendToCluster cs j q).length = cs.length := by
  induction cs generalizing j with
  | nil => rfl
  | cons c cs ih => cases j <;> simp [appendToCluster, ih]

theorem clustersFlat_cons (c : ClusterResult) (cs : List ClusterResult) :
    clustersFlat (c :: cs) = c.queries ++ clustersFlat cs := by
  simp [clustersFlat]

theorem appendToCluster_flat (cs : List ClusterResult) (j : ℕ) (q : ScoredQuery)
    (hj : j < cs.length) :
    List.Perm (clustersFlat (appendToCluster cs j q)) (clustersFlat cs ++ [q]) := by
  induction cs generalizing j with
  | nil => simp at hj
  | cons c cs ih =>
      cases j with
      | zero =>
          show List.Perm (clustersFlat ({ c with queries := c.queries ++ [q] } :: cs))
            (clustersFlat (c :: cs) ++ [q])
          rw [clustersFlat_cons, clustersFlat_cons, List.append_assoc, List.append_assoc]
          exact List.Perm.append_left c.queries List.perm_append_comm
      | succ j =>
          show List.Perm (clustersFlat (c :: appendToCluster cs j q))
            (clustersFlat (c :: cs) ++ [q])
          rw [clustersFlat_cons, clustersFlat_cons, List.append_assoc]
          exact List.Perm.append_left c.queries (ih j (Nat.lt_of_succ_lt_succ hj))

theorem appendToCluster_nonempty (cs : List ClusterResult) (j : ℕ) (q : ScoredQuery)
    (h : ∀ c ∈ cs, c.queries ≠ []) :
    ∀ c ∈ appendToCluster cs j q, c.queries ≠ [] := by
  induction cs generalizing j with
  | nil => simp [appendToCluster]
  | cons c cs ih =>
      cases j with
      | zero =>
          intro c' hc'
          rcases List.mem_cons.mp hc' with rfl | hc'
          · simp
          · exact h c' (List.mem_cons_of_mem _ hc')
      | succ j =>
          intro c' hc'
          rcases List.mem_cons.mp hc' with rfl | hc'
          · exact h c' (List.mem_cons_self _ _)
          · exact ih j (fun d hd => h d (List.mem_cons_of_mem _ hd)) c' hc'

theorem bestClusterFor_lt (cs : List ClusterResult) (e : List ℚ) :
    ∀ j, (bestClusterFor cs e).1 = some j → j < cs.length := by
  rw [bestClusterFor]
  refine List.foldlRecOn (motive := fun acc => ∀ j, acc.1 = some j → j < cs.length)
    cs.enum
    (fun acc p =>
      match p.2.centroid with
      | none => acc
      | some cen =>
          let sim := cosineSimilarity e cen
          if sim > acc.2 then (some p.1, sim) else acc)
    (none, -1) (by intro j h; cases h) ?_
  intro acc hacc p hp
  have hplt : p.1 < cs.length := by
    have := List.mem_enum (x := p.2) (i := p.1) (by
      have : p = (p.1, p.2) := rfl
      rw [← this]; exact hp)
    exact this.1
  rcases p with ⟨i, c⟩
  cases hc : c.centroid with
  | none => simpa [hc] using hacc
  | some cen =>
      intro j hj
      by_cases hsim : cosineSimilarity e cen > acc.2
      · simp only [hc, if_pos hsim] at hj
        cases hj
        exact hplt
      · simp only [hc, if_neg hsim] at hj
        exact hacc j hj

theorem largestIdx_lt (cs : List ClusterResult) (h : cs ≠ []) :
    largestIdx cs < cs.length := by
  have key : ∀ (l : List (ℕ × ClusterResult)) (acc : ℕ × ClusterResult),
      acc.1 < cs.length → (∀ p ∈ l, p.1 < cs.length) →
      (l.foldl (fun acc p =>
          match acc with
          | none => some p
          | some a => if a.2.queries.length > p.2.queries.length then some a else some p)
        (some acc)).elim True (fun r => r.1 < cs.length) ∧
      (l.foldl (fun acc p =>
          match acc with
          | none => some p
          | some a => if a.2.queries.length > p.2.queries.length then some a else some p)
        (some acc)) ≠ none := by
    intro l
    induction l with
    | nil => intro acc hacc _; exact ⟨hacc, by simp⟩
    | cons p l ih =>
        intro acc hacc hl
        simp only [List.foldl_cons]
        by_cases hgt : acc.2.queries.length > p.2.queries.length
        · simp only [if_pos hgt]
          exact ih acc hacc (fun r hr => hl r (List.mem_cons_of_mem _ hr))
        · simp only [if_neg hgt]
          exact ih p (hl p (List.mem_cons_self _ _))
            (fun r hr => hl r (List.mem_cons_of_mem _ hr))
  rcases hcs : cs.enum with _ | ⟨p0, rest⟩
  · have : cs = [] := by
      have := congrArg List.length hcs
      simpa [List.enum_length] using this
    exact absurd this h
  · have hbound : ∀ p ∈ cs.enum, p.1 < cs.length := by
      intro p hp
      have := List.mem_enum (x := p.2) (i := p.1) (by
        have : p = (p.1, p.2) := rfl
        rw [← this]; exact hp)
      exact this.1
    have hp0 : p0.1 < cs.length := hbound p0 (by rw [hcs]; exact List.mem_cons_self _ _)
    have hrest : ∀ p ∈ rest, p.1 < cs.length := by
      intro p hp; exact hbound p (by rw [hcs]; exact List.mem_cons_of_mem _ hp)
    have := key rest p0 hp0 hrest
    rw [largestIdx, hcs]
    simp only [List.foldl_cons]
    rcases hres : (rest.foldl (fun acc p =>
        match acc with
        | none => some p
        | some a => if a.2.queries.length > p.2.queries.length then some a else some p)
      (some p0)) with _ | r
    · exact absurd hres this.2
    · have hr := this.1
      rw [hres] at hr
      simpa [hres] using hr

theorem elemAt_mem (qs : List ScoredQuery) (i : ℕ) (hi : i < qs.length) :
    elemAt qs i ∈ qs := by
  rw [elemAt, List.getD_eq_getElem?_getD, List.getElem?_eq_getElem hi]
  exact List.getElem_mem hi

theorem map_getD_range (qs : List ScoredQuery) :
    (List.range qs.length).map (elemAt qs) = qs := by
  refine List.ext_getElem (by simp) ?_
  intro n h1 h2
  simp only [List.getElem_map, List.getElem_range]
  rw [elemAt, List.getD_eq_getElem?_getD, List.getElem?_eq_getElem h2]
  rfl

theorem nodup_append_singleton {a₀ : List ℕ} {i : ℕ} (hnd : a₀.Nodup)
    (hnotmem : i ∉ a₀) : (a₀ ++ [i]).Nodup := by
  rw [List.nodup_append]
  refine ⟨hnd, List.nodup_singleton i, fun x hx hx' => ?_⟩
  have : x = i := List.mem_singleton.mp hx'
  exact hnotmem (this ▸ hx)

/-- The inner scan of a seed only appends fresh, in-range indices and the
corresponding queries, in lock-step. -/
theorem gather_spec (qs : List ScoredQuery) (e : List ℚ) (is : List ℕ)
    (his : ∀ i ∈ is, i < qs.length) :
    ∀ cq₀ a₀, a₀.Nodup → (∀ i ∈ a₀, i < qs.length) →
    ∃ δ, is.foldl (gatherStep qs e) (cq₀, a₀) = (cq₀ ++ δ.map (elemAt qs), a₀ ++ δ)
      ∧ (a₀ ++ δ).Nodup ∧ (∀ i ∈ δ, i < qs.length) := by
  induction is with
  | nil =>
      intro cq₀ a₀ hnd hb
      exact ⟨[], by simp, by simpa using hnd, by simp⟩
  | cons i is ih =>
      intro cq₀ a₀ hnd hb
      have hi : i < qs.length := his i (List.mem_cons_self _ _)
      have his' : ∀ j ∈ is, j < qs.length :=
        fun j hj => his j (List.mem_cons_of_mem _ hj)
      simp only [List.foldl_cons]
      by_cases hc : a₀.contains i
      · rw [gatherStep, if_pos (by exact hc)]
        exact ih his' cq₀ a₀ hnd hb
      · have hnotmem : i ∉ a₀ := by
          intro hmem
          exact hc (List.elem_eq_true_of_mem hmem)
        have step : gatherStep qs e (cq₀, a₀) i = (cq₀, a₀) ∨
            gatherStep qs e (cq₀, a₀) i = (cq₀ ++ [elemAt qs i], a₀ ++ [i]) := by
          rw [gatherStep, if_neg (by exact hc)]
          split
          · exact Or.inl rfl
          · split
            · exact Or.inl rfl
            · split
              · exact Or.inr rfl
              · exact Or.inl rfl
        rcases step with hstep | hstep
        · rw [hstep]
          exact ih his' cq₀ a₀ hnd hb
        · rw [hstep]
          have hnd' : (a₀ ++ [i]).Nodup := nodup_append_singleton hnd hnotmem
          have hb' : ∀ j ∈ a₀ ++ [i], j < qs.length := by
            intro j hj
            rcases List.mem_append.mp hj with hj | hj
            · exact hb j hj
            · have : j = i := List.mem_singleton.mp hj
              omega
          obtain ⟨δ, heq, hnd'', hbδ⟩ := ih his' (cq₀ ++ [elemAt qs i]) (a₀ ++ [i]) hnd' hb'
          refine ⟨i :: δ, ?_, ?_, ?_⟩
          · rw [heq, List.map_cons, ← List.append_cons, ← List.append_cons]
          · rw [← List.append_cons] at hnd''
            exact hnd''
          · intro j hj
            rcases List.mem_cons.mp hj with rfl | hj
            · exact hi
            · exact hbδ j hj

theorem singletonState_inv (qs : List ScoredQuery) (st : EmbedState) (i : ℕ)
    (hi : i < qs.length) (hnotmem : i ∉ st.assigned) (h : SeedInv qs st) :
    SeedInv qs (singletonState qs st i) := by
  obtain ⟨hperm, hnd, hb, hne⟩ := h
  refine ⟨?_, nodup_append_singleton hnd hnotmem, ?_, ?_⟩
  · show List.Perm (clustersFlat (st.clusters ++ [_])) ((st.assigned ++ [i]).map (elemAt qs))
    rw [clustersFlat_append, clustersFlat_cons, List.map_append]
    simp only [clustersFlat, List.map_nil, List.flatten_nil, List.append_nil,
      List.map_cons]
    exact List.Perm.append hperm (List.Perm.refl _)
  · intro j hj
    rcases List.mem_append.mp hj with hj | hj
    · exact hb j hj
    · have : j = i := List.mem_singleton.mp hj
      omega
  · intro c hc'
    rcases List.mem_append.mp hc' with hc' | hc'
    · exact hne c hc'
    · have : c = ⟨"t" ++ toString (st.clusters.length + 1), [qs.getD i default], none⟩ :=
        List.mem_singleton.mp hc'
      rw [this]
      simp

theorem embedSeedState_inv (qs : List ScoredQuery) (st : EmbedState) (i : ℕ)
    (e : List ℚ) (hi : i < qs.length) (hnotmem : i ∉ st.assigned)
    (h : SeedInv qs st) : SeedInv qs (embedSeedState qs st i e) := by
  obtain ⟨hperm, hnd, hb, hne⟩ := h
  have hnd1 : (st.assigned ++ [i]).Nodup := nodup_append_singleton hnd hnotmem
  have hb1 : ∀ j ∈ st.assigned ++ [i], j < qs.length := by
    intro j hj
    rcases List.mem_append.mp hj with hj | hj
    · exact hb j hj
    · have : j = i := List.mem_singleton.mp hj
      omega
  obtain ⟨δ, heq, hndδ, hbδ⟩ := gather_spec qs e (List.range qs.length)
    (fun j hj => List.mem_range.mp hj) [qs.getD i default]
    (st.assigned ++ [i]) hnd1 hb1
  rw [embedSeedState]
  rw [heq]
  refine ⟨?_, hndδ, ?_, ?_⟩
  · show List.Perm (clustersFlat (st.clusters ++ [_]))
      (((st.assigned ++ [i]) ++ δ).map (elemAt qs))
    rw [clustersFlat_append, clustersFlat_cons]
    simp only [clustersFlat, List.map_nil, List.flatten_nil, List.append_nil]
    rw [List.map_append, List.map_append]
    rw [← List.append_assoc]
    refine List.Perm.append ?_ (List.Perm.refl (δ.map (elemAt qs)))
    exact List.Perm.append hperm (List.Perm.refl _)
  · intro j hj
    rcases List.mem_append.mp hj with hj | hj
    · exact hb1 j hj
    · exact hbδ j hj
  · intro c hc'
    rcases List.mem_append.mp hc' with hc' | hc'
    · exact hne c hc'
    · have hceq := List.mem_singleton.mp hc'
      rw [hceq]
      simp

theorem seedStep_inv (qs : List ScoredQuery) (st : EmbedState) (i : ℕ)
    (hi : i < qs.length) (h : SeedInv qs st) : SeedInv qs (seedStep qs st i) := by
  rw [seedStep]
  by_cases hstop : st.stopped
  · rw [if_pos hstop]
    exact h
  · rw [if_neg hstop]
    by_cases hc : st.assigned.contains i
    · rw [if_pos (by exact hc)]
      exact h
    · rw [if_neg (by exact hc)]
      have hnotmem : i ∉ st.assigned := fun hmem => hc (List.elem_eq_true_of_mem hmem)
      split
      · exact singletonState_inv qs st i hi hnotmem h
      · split
        · exact singletonState_inv qs st i hi hnotmem h
        · exact embedSeedState_inv qs st i _ hi hnotmem h

theorem leftoverBest_lt (cs : List ClusterResult) (q : ScoredQuery) :
    ∀ j, (leftoverBest cs q).1 = some j → j < cs.length := by
  rw [leftoverBest]
  split
  · split
    · intro j h; cases h
    · exact bestClusterFor_lt cs _
  · intro j h; cases h

/-- The leftover loop either appends to an existing cluster (valid index)
or pushes a fresh singleton cluster while under the cap. -/
theorem placeLeftover_cases (cs : List ClusterResult) (q : ScoredQuery) :
    (∃ j, j < cs.length ∧ placeLeftover cs q = appendToCluster cs j q) ∨
    (cs.length < 15 ∧ placeLeftover cs q =
      cs ++ [⟨"t" ++ toString (cs.length + 1), [q], none⟩]) := by
  have hlarge : ¬ cs.length < 15 →
      (∃ j, j < cs.length ∧
        appendToCluster cs (largestIdx cs) q = appendToCluster cs j q) := by
    intro hlen
    refine ⟨largestIdx cs, largestIdx_lt cs ?_, rfl⟩
    intro hnil
    rw [hnil] at hlen
    simp at hlen
  rw [placeLeftover]
  split
  · next j heq =>
      by_cases hsim : (leftoverBest cs q).2 > 0.5
      · rw [if_pos hsim]
        exact Or.inl ⟨j, leftoverBest_lt cs q j heq, rfl⟩
      · rw [if_neg hsim]
        by_cases hlen : cs.length < 15
        · rw [if_pos hlen]
          exact Or.inr ⟨hlen, rfl⟩
        · rw [if_neg hlen]
          exact Or.inl (hlarge hlen)
  · by_cases hlen : cs.length < 15
    · rw [if_pos hlen]
      exact Or.inr ⟨hlen, rfl⟩
    · rw [if_neg hlen]
      exact Or.inl (hlarge hlen)

/-- The leftover loop places a query into the existing clusters: the
flattened members gain exactly that query. -/
theorem placeLeftover_flat (cs : List ClusterResult) (q : ScoredQuery) :
    List.Perm (clustersFlat (placeLeftover cs q)) (clustersFlat cs ++ [q]) := by
  rcases placeLeftover_cases cs q with ⟨j, hj, heq⟩ | ⟨hlen, heq⟩
  · rw [heq]
    exact appendToCluster_flat cs j q hj
  · rw [heq, clustersFlat_append, clustersFlat_cons]
    simp [clustersFlat]

theorem placeLeftover_nonempty (cs : List ClusterResult) (q : ScoredQuery)
    (h : ∀ c ∈ cs, c.queries ≠ []) :
    ∀ c ∈ placeLeftover cs q, c.queries ≠ [] := by
  rcases placeLeftover_cases cs q with ⟨j, hj, heq⟩ | ⟨hlen, heq⟩
  · rw [heq]
    exact appendToCluster_nonempty cs j q h
  · rw [heq]
    intro c hc
    rcases List.mem_append.mp hc with hc | hc
    · exact h c hc
    · have := List.mem_singleton.mp hc
      rw [this]
      simp

theorem placeLeftover_cap (cs : List ClusterResult) (q : ScoredQuery)
    (h : cs.length ≤ 15) : (placeLeftover cs q).length ≤ 15 := by
  rcases placeLeftover_cases cs q with ⟨j, hj, heq⟩ | ⟨hlen, heq⟩
  · rw [heq, appendToCluster_length]
    exact h
  · rw [heq]
    simp only [List.length_append, List.length_cons, List.length_nil]
    omega

theorem remainderStep_assigned (qs : List ScoredQuery) (st : EmbedState) (i : ℕ) :
    (remainderStep qs st i).assigned = st.assigned := by
  rw [remainderStep]
  split <;> rfl

/-- Through the leftover loop, the flattened membership gains exactly the
queries at the unassigned indices, in order. -/
theorem remainder_flat (qs : List ScoredQuery) (is : List ℕ) :
    ∀ (st : EmbedState) (A : List ScoredQuery),
    List.Perm (clustersFlat st.clusters) A →
    List.Perm (clustersFlat ((is.foldl (remainderStep qs) st).clusters))
      (A ++ (is.filter (fun i => !(st.assigned.contains i))).map (elemAt qs)) := by
  induction is with
  | nil =>
      intro st A hA
      simpa using hA
  | cons i is ih =>
      intro st A hA
      simp only [List.foldl_cons]
      by_cases hc : st.assigned.contains i
      · rw [remainderStep, if_pos (by exact hc)]
        have hmem : i ∈ st.assigned := by simpa using hc
        have hfil : (i :: is).filter (fun j => !(st.assigned.contains j)) =
            is.filter (fun j => !(st.assigned.contains j)) := by
          rw [List.filter_cons]
          simp [hmem]
        rw [hfil]
        exact ih st A hA
      · rw [remainderStep, if_neg (by exact hc)]
        have hmem : i ∉ st.assigned := fun hm => hc (List.elem_eq_true_of_mem hm)
        have hA' : List.Perm
            (clustersFlat (placeLeftover st.clusters (qs.getD i default)))
            (A ++ [elemAt qs i]) :=
          (placeLeftover_flat _ _).trans (hA.append (List.Perm.refl _))
        have hrec := ih { st with clusters := placeLeftover st.clusters (qs.getD i default) }
          (A ++ [elemAt qs i]) hA'
        have hfil : (i :: is).filter (fun j => !(st.assigned.contains j)) =
            i :: is.filter (fun j => !(st.assigned.contains j)) := by
          rw [List.filter_cons]
          simp [hmem]
        rw [hfil, List.map_cons, List.append_cons]
        exact hrec

theorem remainder_nonempty (qs : List ScoredQuery) (is : List ℕ) :
    ∀ (st : EmbedState), (∀ c ∈ st.clusters, c.queries ≠ []) →
    ∀ c ∈ (is.foldl (remainderStep qs) st).clusters, c.queries ≠ [] := by
  induction is with
  | nil => intro st h; exact h
  | cons i is ih =>
      intro st h
      simp only [List.foldl_cons]
      by_cases hc : st.assigned.contains i
      · rw [remainderStep, if_pos (by exact hc)]
        exact ih st h
      · rw [remainderStep, if_neg (by exact hc)]
        exact ih _ (placeLeftover_nonempty _ _ h)

theorem remainder_cap (qs : List ScoredQuery) (is : List ℕ) :
    ∀ (st : EmbedState), st.clusters.length ≤ 15 →
    ((is.foldl (remainderStep qs) st).clusters).length ≤ 15 := by
  induction is with
  | nil => intro st h; exact h
  | cons i is ih =>
      intro st h
      simp only [List.foldl_cons]
      by_cases hc : st.assigned.contains i
      · rw [remainderStep, if_pos (by exact hc)]
        exact ih st h
      · rw [remainderStep, if_neg (by exact hc)]
        exact ih _ (placeLeftover_cap _ _ h)

theorem assigned_perm_filter (a : List ℕ) (n : ℕ) (hnd : a.Nodup)
    (hb : ∀ i ∈ a, i < n) :
    List.Perm a ((List.range n).filter (fun i => a.contains i)) := by
  refine List.perm_of_nodup_nodup_toFinset_eq hnd ((List.nodup_range n).filter _) ?_
  ext x
  simp only [List.mem_toFinset, List.mem_filter, List.mem_range]
  constructor
  · intro hx
    exact ⟨hb x hx, by simpa using hx⟩
  · intro hx
    simpa using hx.2

/-- The seed loop establishes the partition invariant. -/
theorem seedPhase_inv (qs : List ScoredQuery) :
    SeedInv qs ((sortedIndices qs).foldl (seedStep qs) ⟨[], [], false⟩) := by
  refine List.foldlRecOn (motive := SeedInv qs) (sortedIndices qs) (seedStep qs)
    ⟨[], [], false⟩ ?_ ?_
  · exact ⟨by simp [clustersFlat], List.nodup_nil, by simp, by simp⟩
  · intro st hst i hi
    have hin : i < qs.length := by
      have := (jsSortWith_perm (scoreDescLE qs) (List.range qs.length)).mem_iff.mp hi
      exact List.mem_range.mp this
    exact seedStep_inv qs st i hin hst

/-- Every input query ends up in exactly one cluster of
`clusterByEmbeddings` (the flattened members are a permutation of the
input). -/
theorem clusterByEmbeddings_partition (qs : List ScoredQuery) :
    List.Perm (clustersFlat (clusterByEmbeddings qs)) qs := by
  obtain ⟨hperm, hnd, hb, hne⟩ := seedPhase_inv qs
  rw [clusterByEmbeddings]
  have hrem := remainder_flat qs (List.range qs.length) _ _ hperm
  refine hrem.trans ?_
  have h1 : List.Perm
      ((((sortedIndices qs).foldl (seedStep qs) ⟨[], [], false⟩).assigned).map (elemAt qs))
      (((List.range qs.length).filter
        (fun i => (((sortedIndices qs).foldl (seedStep qs) ⟨[], [], false⟩).assigned).contains i)).map
        (elemAt qs)) :=
    (assigned_perm_filter _ qs.length hnd hb).map _
  refine (List.Perm.append h1 (List.Perm.refl _)).trans ?_
  have h2 := (List.filter_append_perm
    (fun i => (((sortedIndices qs).foldl (seedStep qs) ⟨[], [], false⟩).assigned).contains i)
    (List.range qs.length)).map (elemAt qs)
  rw [List.map_append] at h2
  exact h2.trans (by rw [map_getD_range])

/-- No cluster of `clusterByEmbeddings` is empty. -/
theorem clusterByEmbeddings_nonempty (qs : List ScoredQuery) :
    ∀ c ∈ clusterByEmbeddings qs, c.queries ≠ [] := by
  obtain ⟨hperm, hnd, hb, hne⟩ := seedPhase_inv qs
  rw [clusterByEmbeddings]
  exact remainder_nonempty qs (List.range qs.length) _ hne

theorem seedStep_cap (qs : List ScoredQuery) (st : EmbedState) (i : ℕ)
    (hemb : ∀ q ∈ qs, hasEmbedding q = true) (hi : i < qs.length)
    (h : CapInv st) : CapInv (seedStep qs st i) := by
  rw [seedStep]
  by_cases hstop : st.stopped
  · rw [if_pos hstop]
    exact h
  · rw [if_neg hstop]
    by_cases hc : st.assigned.contains i
    · rw [if_pos (by exact hc)]
      exact h
    · rw [if_neg (by exact hc)]
      have hq := hemb (qs.getD i default) (elemAt_mem qs i hi)
      have hlt : st.clusters.length < 15 := h.2 (by simpa using hstop)
      split
      · next heq =>
          rw [hasEmbedding, heq] at hq
          cases hq
      · next e heq =>
          split
          · next hce =>
              rw [hasEmbedding, heq] at hq
              simp [hce] at hq
          · constructor
            · show (st.clusters ++ [_]).length ≤ 15
              simp only [List.length_append, List.length_cons, List.length_nil]
              omega
            · intro hstop'
              have : ¬ (st.clusters.length + 1 ≥ 15) := of_decide_eq_false hstop'
              show (st.clusters ++ [_]).length < 15
              simp only [List.length_append, List.length_cons, List.length_nil]
              omega

/-- When every query carries a non-empty embedding, `clusterByEmbeddings`
respects the 15-cluster cap. -/
theorem clusterByEmbeddings_cap (qs : List ScoredQuery)
    (hemb : ∀ q ∈ qs, hasEmbedding q = true) :
    (clusterByEmbeddings qs).length ≤ 15 := by
  have hseed : CapInv ((sortedIndices qs).foldl (seedStep qs) ⟨[], [], false⟩) := by
    refine List.foldlRecOn (motive := CapInv) (sortedIndices qs) (seedStep qs)
      ⟨[], [], false⟩ ?_ ?_
    · exact ⟨by simp, fun _ => by simp⟩
    · intro st hst i hi
      have hin : i < qs.length := by
        have := (jsSortWith_perm (scoreDescLE qs) (List.range qs.length)).mem_iff.mp hi
        exact List.mem_range.mp this
      exact seedStep_cap qs st i hemb hin hst
  rw [clusterByEmbeddings]
  exact remainder_cap qs (List.range qs.length) _ hseed.1

theorem bucketsFlat_cons (e : String × List ScoredQuery)
    (m : List (String × List ScoredQuery)) :
    bucketsFlat (e :: m) = e.2 ++ bucketsFlat m := by
  simp [bucketsFlat]

theorem bucketAdd_flat (k : String) (q : ScoredQuery)
    (m : List (String × List ScoredQuery)) :
    List.Perm (bucketsFlat (bucketAdd k q m)) (bucketsFlat m ++ [q]) := by
  induction m with
  | nil => simp [bucketAdd, bucketsFlat]
  | cons e m ih =>
      rw [bucketAdd]
      by_cases hk : e.1 = k
      · rw [if_pos hk]
        rw [bucketsFlat_cons, bucketsFlat_cons, List.append_assoc, List.append_assoc]
        exact List.Perm.append_left e.2 List.perm_append_comm
      · rw [if_neg hk]
        rw [bucketsFlat_cons, bucketsFlat_cons, List.append_assoc]
        exact List.Perm.append_left e.2 ih

theorem bucketAdd_keys_sub (k : String) (q : ScoredQuery)
    (m : List (String × List ScoredQuery)) :
    ∀ x ∈ (bucketAdd k q m).map (·.1), x = k ∨ x ∈ m.map (·.1) := by
  induction m with
  | nil =>
      intro x hx
      simp only [bucketAdd, List.map_cons, List.map_nil] at hx
      exact Or.inl (List.mem_singleton.mp hx)
  | cons e m ih =>
      intro x hx
      rw [bucketAdd] at hx
      by_cases hk : e.1 = k
      · rw [if_pos hk] at hx
        rcases List.mem_cons.mp hx with rfl | hx
        · exact Or.inl hk
        · exact Or.inr (List.mem_cons_of_mem _ hx)
      · rw [if_neg hk] at hx
        rcases List.mem_cons.mp hx with rfl | hx
        · exact Or.inr (List.mem_cons_self _ _)
        · rcases ih x hx with h | h
          · exact Or.inl h
          · exact Or.inr (List.mem_cons_of_mem _ h)

theorem bucketAdd_inv (k : String) (q : ScoredQuery)
    (m : List (String × List ScoredQuery)) (hk : k ∈ topicKeywords.map (·.1))
    (hnd : (m.map (·.1)).Nodup)
    (hm : ∀ e ∈ m, e.1 ∈ topicKeywords.map (·.1) ∧ e.2 ≠ []) :
    ((bucketAdd k q m).map (·.1)).Nodup ∧
    (∀ e ∈ bucketAdd k q m, e.1 ∈ topicKeywords.map (·.1) ∧ e.2 ≠ []) := by
  induction m with
  | nil =>
      refine ⟨by simp [bucketAdd], ?_⟩
      intro e he
      rw [show bucketAdd k q [] = [(k, [q])] from rfl] at he
      rw [List.mem_singleton.mp he]
      exact ⟨hk, by simp⟩
  | cons e m ih =>
      rw [bucketAdd]
      by_cases hke : e.1 = k
      · rw [if_pos hke]
        refine ⟨?_, ?_⟩
        · simpa using hnd
        · intro e' he'
          rcases List.mem_cons.mp he' with rfl | he'
          · exact ⟨(hm e (List.mem_cons_self _ _)).1, by simp⟩
          · exact hm e' (List.mem_cons_of_mem _ he')
      · rw [if_neg hke]
        rcases List.pairwise_cons.mp hnd with ⟨hhead, htail⟩
        have hm' : ∀ e' ∈ m, e'.1 ∈ topicKeywords.map (·.1) ∧ e'.2 ≠ [] :=
          fun e' he' => hm e' (List.mem_cons_of_mem _ he')
        obtain ⟨ihnd, ihm⟩ := ih htail hm'
        refine ⟨?_, ?_⟩
        · rw [List.map_cons]
          refine List.pairwise_cons.mpr ⟨?_, ihnd⟩
          intro x hx
          rcases bucketAdd_keys_sub k q m x hx with rfl | hx
          · exact fun h => hke h
          · exact hhead x (by simpa using hx)
        · intro e' he'
          rcases List.mem_cons.mp he' with rfl | he'
          · exact hm e' (List.mem_cons_self _ _)
          · exact ihm e' he'

theorem findBucket_key_mem (s : String) (k : String)
    (h : findBucket s = some k) : k ∈ topicKeywords.map (·.1) := by
  rw [findBucket] at h
  rcases hfind : topicKeywords.find?
      (fun e => e.2.any (fun kw => strContains s kw)) with _ | e
  · rw [hfind] at h
    cases h
  · rw [hfind] at h
    have he : e ∈ topicKeywords := List.mem_of_find?_eq_some hfind
    have : e.1 = k := by simpa using h
    rw [← this]
    exact List.mem_map.mpr ⟨e, he, rfl⟩

/-- Through the keyword loop, buckets plus the catch-all gain exactly the
processed queries. -/
theorem keyword_flat (qs : List ScoredQuery) :
    ∀ st A, List.Perm (bucketsFlat st.1 ++ st.2) A →
    List.Perm (bucketsFlat (qs.foldl keywordStep st).1 ++ (qs.foldl keywordStep st).2)
      (A ++ qs) := by
  induction qs with
  | nil =>
      intro st A hA
      simpa using hA
  | cons q qs ih =>
      intro st A hA
      simp only [List.foldl_cons]
      rw [keywordStep]
      cases hfb : findBucket q.query_normalized with
      | some topic =>
          refine (ih _ (A ++ [q]) ?_).trans (by rw [List.append_assoc]; rfl)
          show List.Perm (bucketsFlat (bucketAdd topic q st.1) ++ st.2) (A ++ [q])
          calc bucketsFlat (bucketAdd topic q st.1) ++ st.2
              ~ (bucketsFlat st.1 ++ [q]) ++ st.2 :=
                (bucketAdd_flat topic q st.1).append (List.Perm.refl _)
            _ ~ bucketsFlat st.1 ++ ([q] ++ st.2) := by rw [List.append_assoc]
            _ ~ bucketsFlat st.1 ++ (st.2 ++ [q]) :=
                List.Perm.append_left _ List.perm_append_comm
            _ ~ (bucketsFlat st.1 ++ st.2) ++ [q] := by rw [List.append_assoc]
            _ ~ A ++ [q] := hA.append (List.Perm.refl _)
      | none =>
          refine (ih _ (A ++ [q]) ?_).trans (by rw [List.append_assoc]; rfl)
          show List.Perm (bucketsFlat st.1 ++ (st.2 ++ [q])) (A ++ [q])
          calc bucketsFlat st.1 ++ (st.2 ++ [q])
              ~ (bucketsFlat st.1 ++ st.2) ++ [q] := by rw [List.append_assoc]
            _ ~ A ++ [q] := hA.append (List.Perm.refl _)

theorem keyword_inv (qs : List ScoredQuery) :
    ∀ st, BucketInv st → BucketInv (qs.foldl keywordStep st) := by
  induction qs with
  | nil => intro st h; exact h
  | cons q qs ih =>
      intro st h
      simp only [List.foldl_cons]
      rw [keywordStep]
      cases hfb : findBucket q.query_normalized with
      | some topic =>
          refine ih _ ?_
          obtain ⟨h1, h2⟩ := bucketAdd_inv topic q st.1
            (findBucket_key_mem _ _ hfb) h.1 h.2
          exact ⟨h1, h2⟩
      | none => exact ih _ ⟨h.1, h.2⟩

theorem clustersFlat_enumBuckets (m : List (String × List ScoredQuery)) :
    clustersFlat (m.enum.map
      (fun p => ClusterResult.mk ("t" ++ toString (p.1 + 1)) p.2.2 none)) =
    bucketsFlat m := by
  rw [clustersFlat, bucketsFlat, List.map_map]
  rw [show ((fun c : ClusterResult => c.queries) ∘
      (fun p : ℕ × (String × List ScoredQuery) =>
        ClusterResult.mk ("t" ++ toString (p.1 + 1)) p.2.2 none)) =
      ((fun e : String × List ScoredQuery => e.2) ∘ Prod.snd) from rfl]
  rw [← List.map_map, List.enum_map_snd]

/-- Every input query ends up in exactly one cluster of
`clusterByKeywords`. -/
theorem clusterByKeywords_partition (qs : List ScoredQuery) :
    List.Perm (clustersFlat (clusterByKeywords qs)) qs := by
  have hflat := keyword_flat qs ([], []) [] (by simp [bucketsFlat])
  rw [clusterByKeywords]
  by_cases hemp : (qs.foldl keywordStep ([], [])).2.isEmpty
  · rw [if_pos hemp]
    rw [clustersFlat_enumBuckets]
    have h2 : (qs.foldl keywordStep ([], [])).2 = [] := by
      simpa using hemp
    rw [h2] at hflat
    simpa using hflat
  · rw [if_neg hemp]
    rw [clustersFlat_append, clustersFlat_enumBuckets, clustersFlat_cons]
    simp only [clustersFlat, List.map_nil, List.flatten_nil, List.append_nil]
    simpa using hflat

/-- No cluster of `clusterByKeywords` is empty. -/
theorem clusterByKeywords_nonempty (qs : List ScoredQuery) :
    ∀ c ∈ clusterByKeywords qs, c.queries ≠ [] := by
  have hinv := keyword_inv qs ([], []) ⟨by simp, by simp⟩
  rw [clusterByKeywords]
  have hbuckets : ∀ c ∈ (qs.foldl keywordStep ([], [])).1.enum.map
      (fun p => ClusterResult.mk ("t" ++ toString (p.1 + 1)) p.2.2 none),
      c.queries ≠ [] := by
    intro c hc
    rcases List.mem_map.mp hc with ⟨p, hp, rfl⟩
    have hp2 : p.2 ∈ (qs.foldl keywordStep ([], [])).1 := by
      have := List.enum_map_snd (qs.foldl keywordStep ([], [])).1
      rw [← this]
      exact List.mem_map.mpr ⟨p, hp, rfl⟩
    exact (hinv.2 p.2 hp2).2
  by_cases hemp : (qs.foldl keywordStep ([], [])).2.isEmpty
  · rw [if_pos hemp]
    exact hbuckets
  · rw [if_neg hemp]
    intro c hc
    rcases List.mem_append.mp hc with hc | hc
    · exact hbuckets c hc
    · have := List.mem_singleton.mp hc
      rw [this]
      simpa using hemp

/-- `clusterByKeywords` yields at most 9 clusters (8 buckets plus the
catch-all). -/
theorem clusterByKeywords_card (qs : List ScoredQuery) :
    (clusterByKeywords qs).length ≤ 9 := by
  have hinv := keyword_inv qs ([], []) ⟨by simp, by simp⟩
  have hkeys : ((qs.foldl keywordStep ([], [])).1.map (·.1)).length ≤ 8 := by
    have hnd := hinv.1
    have hsub : ((qs.foldl keywordStep ([], [])).1.map (·.1)).toFinset ⊆
        (topicKeywords.map (·.1)).toFinset := by
      intro x hx
      rw [List.mem_toFinset] at hx ⊢
      rcases List.mem_map.mp hx with ⟨e, he, rfl⟩
      exact (hinv.2 e he).1
    calc ((qs.foldl keywordStep ([], [])).1.map (·.1)).length
        = ((qs.foldl keywordStep ([], [])).1.map (·.1)).toFinset.card :=
          (List.toFinset_card_of_nodup hnd).symm
      _ ≤ (topicKeywords.map (·.1)).toFinset.card := Finset.card_le_card hsub
      _ ≤ (topicKeywords.map (·.1)).length := List.toFinset_card_le _
      _ = 8 := by rfl
  have hm : (qs.foldl keywordStep ([], [])).1.length ≤ 8 := by
    simpa using hkeys
  rw [clusterByKeywords]
  by_cases hemp : (qs.foldl keywordStep ([], [])).2.isEmpty
  · rw [if_pos hemp]
    simp only [List.length_map, List.enum_length]
    omega
  · rw [if_neg hemp]
    simp only [List.length_append, List.length_map, List.enum_length,
      List.length_cons, List.length_nil]
    omega

theorem specSurvivor_cons_none (q : EnrichedQuery) (g : List EnrichedQuery)
    (hg : specSurvivor g = none) : specSurvivor (q :: g) = some q := by
  rw [specSurvivor, hg]

theorem specSurvivor_cons_some (q : EnrichedQuery) (g : List EnrichedQuery)
    (v : EnrichedQuery) (hg : specSurvivor g = some v) :
    specSurvivor (q :: g) =
      if demandKey v > demandKey q then some v else some q := by
  rw [specSurvivor, hg]

theorem specSurvivor_ne_none (q : EnrichedQuery) (g : List EnrichedQuery) :
    specSurvivor (q :: g) ≠ none := by
  cases hg : specSurvivor g with
  | none => rw [specSurvivor_cons_none q g hg]; exact fun h => by cases h
  | some v =>
      rw [specSurvivor_cons_some q g v hg]
      by_cases hc : demandKey v > demandKey q
      · rw [if_pos hc]; exact fun h => by cases h
      · rw [if_neg hc]; exact fun h => by cases h

theorem specSurvivor_mem (g : List EnrichedQuery) (w : EnrichedQuery)
    (h : specSurvivor g = some w) : w ∈ g := by
  induction g with
  | nil => cases h
  | cons q g ih =>
      cases hg : specSurvivor g with
      | none =>
          rw [specSurvivor_cons_none q g hg] at h
          exact List.mem_cons.mpr (Or.inl (Option.some.inj h).symm)
      | some v =>
          rw [specSurvivor_cons_some q g v hg] at h
          by_cases hcmp : demandKey v > demandKey q
          · rw [if_pos hcmp] at h
            exact List.mem_cons_of_mem _ (ih ((Option.some.inj h) ▸ hg))
          · rw [if_neg hcmp] at h
            exact List.mem_cons.mpr (Or.inl (Option.some.inj h).symm)

theorem specSurvivor_max (g : List EnrichedQuery) :
    ∀ w, specSurvivor g = some w → ∀ y ∈ g, demandKey y ≤ demandKey w := by
  induction g with
  | nil => intro w h; cases h
  | cons q g ih =>
      intro w h y hy
      cases hg : specSurvivor g with
      | none =>
          rw [specSurvivor_cons_none q g hg] at h
          have hgnil : g = [] := by
            cases g with
            | nil => rfl
            | cons a g' => exact absurd hg (specSurvivor_ne_none a g')
          subst hgnil
          have : y = q := by simpa using hy
          rw [this, ← Option.some.inj h]
      | some v =>
          rw [specSurvivor_cons_some q g v hg] at h
          by_cases hcmp : demandKey v > demandKey q
          · rw [if_pos hcmp] at h
            have hw : v = w := Option.some.inj h
            subst hw
            rcases List.mem_cons.mp hy with rfl | hy
            · exact le_of_lt hcmp
            · exact ih v hg y hy
          · rw [if_neg hcmp] at h
            have hw : q = w := Option.some.inj h
            subst hw
            rcases List.mem_cons.mp hy with rfl | hy
            · exact le_refl _
            · exact le_trans (ih v hg y hy) (not_lt.mp hcmp)

theorem mergeWinner_none (w : EnrichedQuery) : mergeWinner w none = w := rfl

theorem mergeWinner_some (w v : EnrichedQuery) :
    mergeWinner w (some v) = if demandKey v > demandKey w then v else w := rfl

theorem foldl_pickWinner_some (g : List EnrichedQuery) :
    ∀ w, g.foldl pickWinner (some w) = some (mergeWinner w (specSurvivor g)) := by
  induction g with
  | nil => intro w; rfl
  | cons q g ih =>
      intro w
      simp only [List.foldl_cons]
      by_cases h1 : demandKey q > demandKey w
      · rw [show pickWinner (some w) q = some q from by rw [pickWinner, if_pos h1]]
        rw [ih q]
        cases hg : specSurvivor g with
        | none =>
            rw [specSurvivor_cons_none q g hg, mergeWinner_none, mergeWinner_some,
              if_pos h1]
        | some v =>
            by_cases h2 : demandKey v > demandKey q
            · rw [specSurvivor_cons_some q g v hg, if_pos h2, mergeWinner_some,
                mergeWinner_some, if_pos h2, if_pos (lt_trans h1 h2)]
            · rw [specSurvivor_cons_some q g v hg, if_neg h2, mergeWinner_some,
                mergeWinner_some, if_neg h2, if_pos h1]
      · rw [show pickWinner (some w) q = some w from by rw [pickWinner, if_neg h1]]
        rw [ih w]
        cases hg : specSurvivor g with
        | none =>
            rw [specSurvivor_cons_none q g hg, mergeWinner_none, mergeWinner_some,
              if_neg h1]
        | some v =>
            by_cases h2 : demandKey v > demandKey q
            · rw [specSurvivor_cons_some q g v hg, if_pos h2]
            · rw [specSurvivor_cons_some q g v hg, if_neg h2, mergeWinner_some,
                mergeWinner_some, if_neg h1]
              rw [if_neg (not_lt.mpr (le_trans (not_lt.mp h2) (not_lt.mp h1)))]

theorem foldl_pickWinner_eq (g : List EnrichedQuery) :
    g.foldl pickWinner none = specSurvivor g := by
  cases g with
  | nil => rfl
  | cons q g =>
      simp only [List.foldl_cons]
      rw [show pickWinner none q = some q from rfl]
      rw [foldl_pickWinner_some g q]
      cases hg : specSurvivor g with
      | none => rw [specSurvivor_cons_none q g hg, mergeWinner_none]
      | some v =>
          rw [specSurvivor_cons_some q g v hg, mergeWinner_some]
          by_cases h2 : demandKey v > demandKey q
          · rw [if_pos h2, if_pos h2]
          · rw [if_neg h2, if_neg h2]

theorem mapFind_nil (t : String) : mapFind [] t = none := rfl

theorem mapFind_cons (e : String × NormalizedQuery)
    (m : List (String × NormalizedQuery)) (t : String) :
    mapFind (e :: m) t = if e.1 = t then some e.2 else mapFind m t := by
  rw [mapFind, List.find?]
  by_cases h : e.1 = t
  · rw [show (decide (e.1 = t)) = true from by simpa using h, if_pos h]
    rfl
  · rw [show (decide (e.1 = t)) = false from by simpa using h, if_neg h]
    rfl

theorem mapFind_mapSet (m : List (String × NormalizedQuery)) (k t : String)
    (v : NormalizedQuery) :
    mapFind (mapSet k v m) t = if t = k then some v else mapFind m t := by
  induction m with
  | nil =>
      rw [show mapSet k v [] = [(k, v)] from rfl, mapFind_cons, mapFind_nil]
      by_cases ht : t = k
      · rw [if_pos ht.symm, if_pos ht]
      · rw [if_neg (fun h => ht h.symm), if_neg ht]
  | cons e m ih =>
      rw [mapSet]
      by_cases hek : e.1 = k
      · rw [if_pos hek, mapFind_cons, mapFind_cons]
        by_cases ht : t = k
        · rw [if_pos ht.symm, if_pos ht]
        · rw [if_neg (fun h => ht h.symm), if_neg ht,
            if_neg (show ¬ e.1 = t from by rw [hek]; exact fun h => ht h.symm)]
      · rw [if_neg hek, mapFind_cons, mapFind_cons]
        by_cases het : e.1 = t
        · rw [if_pos het, if_pos het,
            if_neg (show ¬ t = k from fun h => hek (het.trans h))]
        · rw [if_neg het, if_neg het, ih]

theorem dedupeUpdate_none (t : String) (q : EnrichedQuery) :
    dedupeUpdate t none q = some (mkNormalized q t) := rfl

theorem dedupeUpdate_some (t : String) (e : NormalizedQuery) (q : EnrichedQuery) :
    dedupeUpdate t (some e) q =
      if demandKey q > demandKey e.toEnrichedQuery then some (mkNormalized q t)
      else some e := rfl

theorem dedupeStep_empty (m : List (String × NormalizedQuery))
    (q : EnrichedQuery) (hn : normalizeQuery q.query = "") :
    dedupeStep m q = m := by
  rw [dedupeStep, if_pos hn]

theorem dedupeStep_new (m : List (String × NormalizedQuery))
    (q : EnrichedQuery) (hn : ¬ normalizeQuery q.query = "")
    (hfind : mapFind m (normalizeQuery q.query) = none) :
    dedupeStep m q =
      mapSet (normalizeQuery q.query) (mkNormalized q (normalizeQuery q.query)) m := by
  rw [dedupeStep, if_neg hn, hfind]

theorem dedupeStep_found (m : List (String × NormalizedQuery))
    (q : EnrichedQuery) (existing : NormalizedQuery)
    (hn : ¬ normalizeQuery q.query = "")
    (hfind : mapFind m (normalizeQuery q.query) = some existing) :
    dedupeStep m q =
      if demandKey q > demandKey existing.toEnrichedQuery then
        mapSet (normalizeQuery q.query) (mkNormalized q (normalizeQuery q.query)) m
      else m := by
  rw [dedupeStep, if_neg hn, hfind]

theorem dedupeStep_find (m : List (String × NormalizedQuery))
    (q : EnrichedQuery) (t : String) (ht : t ≠ "") :
    mapFind (dedupeStep m q) t =
      if normalizeQuery q.query = t then dedupeUpdate t (mapFind m t) q
      else mapFind m t := by
  by_cases hn : normalizeQuery q.query = ""
  · rw [dedupeStep_empty m q hn]
    rw [if_neg (show ¬ normalizeQuery q.query = t from
      by rw [hn]; exact fun h => ht h.symm)]
  · cases hfind : mapFind m (normalizeQuery q.query) with
    | none =>
        rw [dedupeStep_new m q hn hfind, mapFind_mapSet]
        by_cases hqt : normalizeQuery q.query = t
        · rw [if_pos (show t = normalizeQuery q.query from hqt.symm), if_pos hqt]
          rw [← hqt, hfind, dedupeUpdate_none]
        · rw [if_neg (show ¬ t = normalizeQuery q.query from fun h => hqt h.symm),
            if_neg hqt]
    | some existing =>
        rw [dedupeStep_found m q existing hn hfind]
        by_cases hcmp : demandKey q > demandKey existing.toEnrichedQuery
        · rw [if_pos hcmp, mapFind_mapSet]
          by_cases hqt : normalizeQuery q.query = t
          · rw [if_pos (show t = normalizeQuery q.query from hqt.symm), if_pos hqt]
            rw [← hqt, hfind, dedupeUpdate_some, if_pos hcmp]
          · rw [if_neg (show ¬ t = normalizeQuery q.query from fun h => hqt h.symm),
              if_neg hqt]
        · rw [if_neg hcmp]
          by_cases hqt : normalizeQuery q.query = t
          · rw [if_pos hqt, ← hqt, hfind, dedupeUpdate_some, if_neg hcmp]
          · rw [if_neg hqt]

theorem dedupe_find (qs : List EnrichedQuery) (t : String) (ht : t ≠ "") :
    ∀ m, mapFind (qs.foldl dedupeStep m) t =
      (qs.filter (fun q => normalizeQuery q.query = t)).foldl
        (dedupeUpdate t) (mapFind m t) := by
  induction qs with
  | nil => intro m; rfl
  | cons q qs ih =>
      intro m
      simp only [List.foldl_cons]
      rw [ih (dedupeStep m q), dedupeStep_find m q t ht]
      by_cases hqt : normalizeQuery q.query = t
      · rw [if_pos hqt, List.filter_cons_of_pos (by simpa using hqt), List.foldl_cons]
      · rw [if_neg hqt, List.filter_cons_of_neg (by simpa using hqt)]

theorem dedupeUpdate_eq_pickWinner (t : String) (g : List EnrichedQuery) :
    ∀ cur : Option EnrichedQuery,
      g.foldl (dedupeUpdate t) (cur.map (fun w => mkNormalized w t)) =
      (g.foldl pickWinner cur).map (fun w => mkNormalized w t) := by
  induction g with
  | nil => intro cur; rfl
  | cons q g ih =>
      intro cur
      simp only [List.foldl_cons]
      cases cur with
      | none =>
          rw [show dedupeUpdate t ((none : Option EnrichedQuery).map
            (fun w => mkNormalized w t)) q = some (mkNormalized q t) from rfl]
          rw [show pickWinner none q = some q from rfl]
          exact ih (some q)
      | some e =>
          rw [show ((some e : Option EnrichedQuery).map
            (fun w => mkNormalized w t)) = some (mkNormalized e t) from rfl]
          rw [dedupeUpdate, pickWinner]
          by_cases hcmp : demandKey q > demandKey e
          · rw [if_pos (by exact hcmp), if_pos hcmp]
            exact ih (some q)
          · rw [if_neg (by exact hcmp), if_neg hcmp]
            exact ih (some e)

theorem mapSet_keys_sub (k : String) (v : NormalizedQuery)
    (m : List (String × NormalizedQuery)) :
    ∀ x ∈ (mapSet k v m).map (·.1), x = k ∨ x ∈ m.map (·.1) := by
  induction m with
  | nil =>
      intro x hx
      exact Or.inl (by simpa [mapSet] using hx)
  | cons e m ih =>
      intro x hx
      rw [mapSet] at hx
      by_cases hek : e.1 = k
      · rw [if_pos hek] at hx
        rcases List.mem_cons.mp hx with rfl | hx
        · exact Or.inl rfl
        · exact Or.inr (List.mem_cons_of_mem _ hx)
      · rw [if_neg hek] at hx
        rcases List.mem_cons.mp hx with rfl | hx
        · exact Or.inr (List.mem_cons_self _ _)
        · rcases ih x hx with h | h
          · exact Or.inl h
          · exact Or.inr (List.mem_cons_of_mem _ h)

theorem mapSet_wf (k : String) (v : NormalizedQuery)
    (m : List (String × NormalizedQuery)) (hv : v.query_normalized = k)
    (h : MapWF m) : MapWF (mapSet k v m) := by
  induction m with
  | nil => exact ⟨by simp [mapSet], by simp [mapSet]; exact hv⟩
  | cons e m ih =>
      obtain ⟨hnd, hcons⟩ := h
      rcases List.pairwise_cons.mp hnd with ⟨hhead, htail⟩
      rw [mapSet]
      by_cases hek : e.1 = k
      · rw [if_pos hek]
        refine ⟨?_, ?_⟩
        · rw [List.map_cons]
          refine List.pairwise_cons.mpr ⟨?_, htail⟩
          intro x hx
          rw [← hek]
          exact hhead x hx
        · intro e' he'
          rcases List.mem_cons.mp he' with rfl | he'
          · exact hv
          · exact hcons e' (List.mem_cons_of_mem _ he')
      · rw [if_neg hek]
        obtain ⟨ihnd, ihcons⟩ := ih ⟨htail,
          fun e' he' => hcons e' (List.mem_cons_of_mem _ he')⟩
        refine ⟨?_, ?_⟩
        · rw [List.map_cons]
          refine List.pairwise_cons.mpr ⟨?_, ihnd⟩
          intro x hx
          rcases mapSet_keys_sub k v m x hx with rfl | hx
          · exact fun h => hek h
          · exact hhead x hx
        · intro e' he'
          rcases List.mem_cons.mp he' with rfl | he'
          · exact hcons e' (List.mem_cons_self _ _)
          · exact ihcons e' he'

theorem dedupeStep_wf (m : List (String × NormalizedQuery))
    (q : EnrichedQuery) (h : MapWF m) : MapWF (dedupeStep m q) := by
  by_cases hn : normalizeQuery q.query = ""
  · rw [dedupeStep_empty m q hn]
    exact h
  · cases hfind : mapFind m (normalizeQuery q.query) with
    | none =>
        rw [dedupeStep_new m q hn hfind]
        exact mapSet_wf _ _ m rfl h
    | some existing =>
        rw [dedupeStep_found m q existing hn hfind]
        by_cases hcmp : demandKey q > demandKey existing.toEnrichedQuery
        · rw [if_pos hcmp]
          exact mapSet_wf _ _ m rfl h
        · rw [if_neg hcmp]
          exact h

theorem dedupe_wf (qs : List EnrichedQuery) :
    ∀ m, MapWF m → MapWF (qs.foldl dedupeStep m) := by
  induction qs with
  | nil => intro m h; exact h
  | cons q qs ih =>
      intro m h
      simp only [List.foldl_cons]
      exact ih _ (dedupeStep_wf m q h)

theorem values_filter (m : List (String × NormalizedQuery)) (hwf : MapWF m)
    (t : String) :
    (m.map (·.2)).filter (fun r => r.query_normalized = t) =
      (mapFind m t).toList := by
  induction m with
  | nil => rfl
  | cons e m ih =>
      obtain ⟨hnd, hcons⟩ := hwf
      rcases List.pairwise_cons.mp hnd with ⟨hhead, htail⟩
      have ihm := ih ⟨htail, fun e' he' => hcons e' (List.mem_cons_of_mem _ he')⟩
      have hek : e.2.query_normalized = e.1 := hcons e (List.mem_cons_self _ _)
      rw [List.map_cons, List.filter_cons]
      by_cases het : e.1 = t
      · rw [show (decide (e.2.query_normalized = t)) = true from
          by simp [hek, het]]
        rw [mapFind_cons, if_pos het]
        have hnone : mapFind m t = none := by
          rw [mapFind, List.find?_eq_none.mpr ?_]
          · rfl
          · intro x hx
            have hxk : ¬ (fun y => y.1) e = x.1 :=
              hhead x.1 (List.mem_map.mpr ⟨x, hx, rfl⟩)
            simp only [decide_eq_true_eq]
            intro hxt
            exact hxk (het.trans hxt.symm)
        rw [hnone] at ihm
        rw [ihm]
        rfl
      · rw [show (decide (e.2.query_normalized = t)) = false from
          by simp [hek]; exact het]
        rw [mapFind_cons, if_neg het]
        exact ihm

/-- The full characterization of `normalizeAndDedupe` per normalized text:
the surviving record for `t` is exactly the spec-side survivor of the
collision group of `t`. -/
theorem normalizeAndDedupe_char (qs : List EnrichedQuery) (t : String)
    (ht : t ≠ "") :
    (normalizeAndDedupe qs).filter (fun r => r.query_normalized = t) =
      ((specSurvivor (qs.filter (fun q => normalizeQuery q.query = t))).map
        (fun w => mkNormalized w t)).toList := by
  rw [normalizeAndDedupe]
  rw [values_filter _ (dedupe_wf qs [] ⟨by simp, by simp⟩) t]
  rw [dedupe_find qs t ht []]
  rw [show mapFind [] t = ((none : Option EnrichedQuery).map
    (fun w => mkNormalized w t)) from rfl]
  rw [dedupeUpdate_eq_pickWinner t _ none]
  rw [foldl_pickWinner_eq]

theorem normalizeAndDedupe_nodup (qs : List EnrichedQuery) :
    ((normalizeAndDedupe qs).map (fun r => r.query_normalized)).Nodup := by
  obtain ⟨hnd, hcons⟩ := dedupe_wf qs [] ⟨by simp, by simp⟩
  rw [normalizeAndDedupe, List.map_map]
  have : ((qs.foldl dedupeStep []).map
      ((fun r : NormalizedQuery => r.query_normalized) ∘ (·.2))) =
      ((qs.foldl dedupeStep []).map (·.1)) := by
    refine List.map_congr_left ?_
    intro e he
    exact hcons e he
  rw [this]
  exact hnd

/-! ## Cosine similarity: totality, degenerate cases, bounds -/

theorem sumSquares_nonneg (a : List ℚ) : 0 ≤ sumSquares a := by
  induction a with
  | nil => simp [sumSquares]
  | cons x a ih =>
      rw [sumSquares, List.map_cons, List.sum_cons]
      have : 0 ≤ x * x := mul_self_nonneg x
      rw [sumSquares] at ih
      linarith

/-- Cauchy–Schwarz for the loop accumulators of `cosineSimilarity`. -/
theorem dot_sq_le (a : List ℚ) :
    ∀ b : List ℚ, (dotProduct a b) ^ 2 ≤ sumSquares a * sumSquares b := by
  induction a with
  | nil =>
      intro b
      rw [show dotProduct [] b = 0 from rfl]
      have hb := sumSquares_nonneg b
      have ha : sumSquares ([] : List ℚ) = 0 := by simp [sumSquares]
      rw [ha]
      norm_num
  | cons x a ih =>
      intro b
      cases b with
      | nil =>
          rw [show dotProduct (x :: a) [] = 0 from rfl]
          have ha := sumSquares_nonneg (x :: a)
          have hb : sumSquares ([] : List ℚ) = 0 := by simp [sumSquares]
          rw [hb]
          norm_num
      | cons y b =>
          have hd : dotProduct (x :: a) (y :: b) = x * y + dotProduct a b := by
            rw [dotProduct, dotProduct]
            simp [List.zip_cons_cons]
          have hsa : sumSquares (x :: a) = x * x + sumSquares a := by
            rw [sumSquares, sumSquares]
            simp
          have hsb : sumSquares (y :: b) = y * y + sumSquares b := by
            rw [sumSquares, sumSquares]
            simp
          rw [hd, hsa, hsb]
          have hA : 0 ≤ sumSquares a := sumSquares_nonneg a
          have hB : 0 ≤ sumSquares b := sumSquares_nonneg b
          have hIH : (dotProduct a b) ^ 2 ≤ sumSquares a * sumSquares b := ih b
          set d := dotProduct a b with hdd
          set A := sumSquares a with hAA
          set B := sumSquares b with hBB
          rcases eq_or_lt_of_le hA with hA0 | hA0
          · have hd0 : d = 0 := by
              have : d ^ 2 ≤ 0 := by
                rw [← hA0] at hIH
                simpa using hIH
              have := sq_nonneg d
              have hsq : d ^ 2 = 0 := le_antisymm ‹d ^ 2 ≤ 0› (sq_nonneg d)
              exact pow_eq_zero_iff (by norm_num) |>.mp hsq
            rw [hd0, ← hA0]
            nlinarith [sq_nonneg (x * y), mul_self_nonneg x, mul_self_nonneg y]
          · nlinarith [sq_nonneg (x * d - y * A), hIH, hA0,
              mul_nonneg (add_nonneg (mul_self_nonneg x) hA)
                (sub_nonneg.mpr hIH)]

theorem cosineSimilarity_ne_length (a b : List ℚ) (h : a.length ≠ b.length) :
    cosineSimilarity a b = 0 := by
  rw [cosineSimilarity, if_pos (Or.inl h)]

theorem cosineSimilarity_nil_length (a b : List ℚ) (h : a.length = 0) :
    cosineSimilarity a b = 0 := by
  rw [cosineSimilarity, if_pos (Or.inr h)]

theorem cosineSimilarity_zero_norm (a b : List ℚ)
    (h : sumSquares a = 0 ∨ sumSquares b = 0) : cosineSimilarity a b = 0 := by
  rw [cosineSimilarity]
  by_cases hguard : a.length ≠ b.length ∨ a.length = 0
  · rw [if_pos hguard]
  · rw [if_neg hguard]
    have hdenom : Real.sqrt (sumSquares a) * Real.sqrt (sumSquares b) = 0 := by
      rcases h with h | h
      · rw [h]
        push_cast
        rw [Real.sqrt_zero, zero_mul]
      · rw [h]
        push_cast
        rw [Real.sqrt_zero, mul_zero]
    rw [if_neg (by rw [hdenom]; exact lt_irrefl 0)]

/-- `cosineSimilarity` always lies in `[-1, 1]`. -/
theorem cosineSimilarity_bounds (a b : List ℚ) :
    -1 ≤ cosineSimilarity a b ∧ cosineSimilarity a b ≤ 1 := by
  rw [cosineSimilarity]
  by_cases hguard : a.length ≠ b.length ∨ a.length = 0
  · rw [if_pos hguard]
    norm_num
  · rw [if_neg hguard]
    by_cases hdenom : Real.sqrt (sumSquares a) * Real.sqrt (sumSquares b) > 0
    · rw [if_pos hdenom]
      have hsq : ((dotProduct a b : ℝ)) ^ 2 ≤
          (sumSquares a : ℝ) * (sumSquares b : ℝ) := by
        have := dot_sq_le a b
        exact_mod_cast this
      have habs : |(dotProduct a b : ℝ)| ≤
          Real.sqrt (sumSquares a) * Real.sqrt (sumSquares b) := by
        have h1 : |(dotProduct a b : ℝ)| = Real.sqrt ((dotProduct a b : ℝ) ^ 2) :=
          (Real.sqrt_sq_eq_abs _).symm
        rw [h1, ← Real.sqrt_mul (by exact_mod_cast sumSquares_nonneg a)]
        exact Real.sqrt_le_sqrt hsq
      have hle := abs_le.mp (by
        rw [abs_div, abs_of_pos hdenom]
        exact div_le_one_of_le₀ habs (le_of_lt hdenom) :
          |(dotProduct a b : ℝ) / (Real.sqrt (sumSquares a) * Real.sqrt (sumSquares b))| ≤ 1)
      exact hle
    · rw [if_neg hdenom]
      norm_num

/-! ## Scoring bounds and monotonicity -/

theorem maxVolume_ge_one (qs : List QueryWithEmbedding) : 1 ≤ maxVolume qs := by
  induction qs with
  | nil => simp [maxVolume]
  | cons q qs ih =>
      rw [maxVolume, List.map_cons, List.foldr_cons]
      rw [maxVolume] at ih
      exact le_trans ih (le_max_right _ _)

theorem maxVolume_ge (qs : List QueryWithEmbedding) :
    ∀ q ∈ qs, demandKey q.toEnrichedQuery ≤ maxVolume qs := by
  induction qs with
  | nil => simp
  | cons p qs ih =>
      intro q hq
      rw [maxVolume, List.map_cons, List.foldr_cons]
      rcases List.mem_cons.mp hq with rfl | hq
      · exact le_max_left _ _
      · rw [maxVolume] at ih
        exact le_trans (ih q hq) (le_max_right _ _)

theorem log1p_nonneg (v : ℚ) (h : 0 ≤ v) : 0 ≤ log1p v := by
  rw [log1p]
  refine Real.log_nonneg ?_
  have : (0 : ℝ) ≤ (v : ℝ) := by exact_mod_cast h
  linarith

theorem log1p_pos (v : ℚ) (h : 1 ≤ v) : 0 < log1p v := by
  rw [log1p]
  refine Real.log_pos ?_
  have : (1 : ℝ) ≤ (v : ℝ) := by exact_mod_cast h
  linarith

theorem log1p_mono (v w : ℚ) (hv : 0 ≤ v) (hvw : v ≤ w) : log1p v ≤ log1p w := by
  rw [log1p, log1p]
  refine Real.log_le_log ?_ ?_
  · have : (0 : ℝ) ≤ (v : ℝ) := by exact_mod_cast hv
    linarith
  · have : (v : ℝ) ≤ (w : ℝ) := by exact_mod_cast hvw
    linarith

theorem log1p_ratio_nonneg (v M : ℚ) (h0 : 0 ≤ v) (h1 : 1 ≤ M) :
    0 ≤ log1p v / log1p M :=
  div_nonneg (log1p_nonneg v h0) (le_of_lt (log1p_pos M h1))

theorem log1p_ratio_le_one (v M : ℚ) (h0 : 0 ≤ v) (hvM : v ≤ M) (h1 : 1 ≤ M) :
    log1p v / log1p M ≤ 1 :=
  div_le_one_of_le₀ (log1p_mono v M h0 hvM) (le_of_lt (log1p_pos M h1))

/-- `volume_score` stays in `[0, 1]` for non-negative demand values. -/
theorem volumeScoreOf_bounds (q : EnrichedQuery) (maxV : ℚ)
    (hq : 0 ≤ demandKey q) (hle : demandKey q ≤ maxV) (h1 : 1 ≤ maxV) :
    0 ≤ volumeScoreOf q maxV ∧ volumeScoreOf q maxV ≤ 1 := by
  rw [volumeScoreOf]
  by_cases hv : hasVolumeValue q
  · rw [if_pos hv]
    exact ⟨log1p_ratio_nonneg _ _ hq h1, log1p_ratio_le_one _ _ hq hle h1⟩
  · rw [if_neg hv]
    norm_num

/-- `relevance_score` stays in `[0, 1]`. -/
theorem relevanceScoreOf_bounds (embedding : Option (List ℚ))
    (companyEmbedding : List ℚ) :
    0 ≤ relevanceScoreOf embedding companyEmbedding ∧
    relevanceScoreOf embedding companyEmbedding ≤ 1 := by
  cases embedding with
  | none =>
      rw [show relevanceScoreOf none companyEmbedding = 0.5 from rfl]
      norm_num
  | some e =>
      rw [show relevanceScoreOf (some e) companyEmbedding =
        (if e.length > 0 ∧ companyEmbedding.length > 0 then
          (cosineSimilarity e companyEmbedding + 1) / 2 else 0.5) from rfl]
      by_cases hcond : e.length > 0 ∧ companyEmbedding.length > 0
      · rw [if_pos hcond]
        obtain ⟨hlo, hhi⟩ := cosineSimilarity_bounds e companyEmbedding
        constructor <;> [linarith; linarith]
      · rw [if_neg hcond]
        norm_num

/-- The pre-cap confidence lies in `[0.2, 0.6]`. -/
theorem rawQueryConfidence_bounds (q : QueryWithEmbedding) :
    0.2 ≤ rawQueryConfidence q ∧ rawQueryConfidence q ≤ 0.6 := by
  rw [rawQueryConfidence]
  by_cases h1 : q.has_volume <;> by_cases h2 : q.source = "paa" <;>
    by_cases h3 : isClearIntent q.intent <;>
    simp only [h1, h2, h3, if_true, if_false] <;> norm_num

/-- The `Math.min(·, 1)` cap of `calculateQueryConfidence` never binds. -/
theorem calculateQueryConfidence_eq_raw (q : QueryWithEmbedding) :
    calculateQueryConfidence q = rawQueryConfidence q := by
  rw [calculateQueryConfidence]
  exact min_eq_left (by linarith [(rawQueryConfidence_bounds q).2])

theorem compositeScore_mono (v v' r r' s i : ℝ) (hv : v ≤ v') (hr : r ≤ r') :
    compositeScore v r s i ≤ compositeScore v' r' s i := by
  rw [compositeScore, compositeScore]
  nlinarith

theorem log1p_ratio_mono (v v' Mo : ℚ) (h0 : 0 ≤ v) (hvv' : v ≤ v')
    (hMo : 1 ≤ Mo) :
    log1p v / log1p (max Mo v) ≤ log1p v' / log1p (max Mo v') := by
  by_cases hcase : v' ≤ Mo
  · have h1 : max Mo v = Mo := max_eq_left (le_trans hvv' hcase)
    have h2 : max Mo v' = Mo := max_eq_left hcase
    rw [h1, h2]
    exact (div_le_div_iff_of_pos_right (log1p_pos Mo hMo)).mpr (log1p_mono v v' h0 hvv')
  · have hMov' : Mo ≤ v' := le_of_lt (not_le.mp hcase)
    have h2 : max Mo v' = v' := max_eq_right hMov'
    rw [h2]
    have hv'1 : 1 ≤ v' := le_trans hMo hMov'
    have hratio : log1p v' / log1p v' = 1 :=
      div_self (ne_of_gt (log1p_pos v' hv'1))
    rw [hratio]
    exact log1p_ratio_le_one v (max Mo v) h0 (le_max_right _ _)
      (le_trans hMo (le_max_left _ _))

/-! ## The in-topic comparator: characterization, totality, transitivity -/

theorem memberLE_iff (a b : ScoredQuery) :
    memberLE a b = true ↔
      (memberSortKey b < memberSortKey a ∨
       (memberSortKey b = memberSortKey a ∧ b.query_score ≤ a.query_score)) := by
  rw [memberLE]
  by_cases hk : memberSortKey b = memberSortKey a
  · rw [if_pos hk]
    rw [decide_eq_true_iff]
    constructor
    · intro h
      exact Or.inr ⟨hk, h⟩
    · intro h
      rcases h with h | h
      · exact absurd hk (ne_of_lt h)
      · exact h.2
  · rw [if_neg hk]
    rw [decide_eq_true_iff]
    constructor
    · intro h
      exact Or.inl h
    · intro h
      rcases h with h | h
      · exact h
      · exact absurd h.1 hk

theorem memberLE_total (a b : ScoredQuery) :
    memberLE a b = true ∨ memberLE b a = true := by
  rw [memberLE_iff, memberLE_iff]
  rcases lt_trichotomy (memberSortKey b) (memberSortKey a) with h | h | h
  · exact Or.inl (Or.inl h)
  · rcases le_total b.query_score a.query_score with hs | hs
    · exact Or.inl (Or.inr ⟨h, hs⟩)
    · exact Or.inr (Or.inr ⟨h.symm, hs⟩)
  · exact Or.inr (Or.inl h)

theorem memberLE_trans (a b c : ScoredQuery) (hab : memberLE a b = true)
    (hbc : memberLE b c = true) : memberLE a c = true := by
  rw [memberLE_iff] at hab hbc ⊢
  rcases hab with hab | hab
  · rcases hbc with hbc | hbc
    · exact Or.inl (lt_trans hbc hab)
    · exact Or.inl (hbc.1 ▸ hab)
  · rcases hbc with hbc | hbc
    · exact Or.inl (hab.1 ▸ hbc)
    · exact Or.inr ⟨hbc.1.trans hab.1, le_trans hbc.2 hab.2⟩

theorem memberLE_of_eq (a b : ScoredQuery)
    (hk : memberSortKey b = memberSortKey a)
    (hs : b.query_score ≤ a.query_score) : memberLE a b = true :=
  (memberLE_iff a b).mpr (Or.inr ⟨hk, hs⟩)

theorem topicLE_iff (a b : Topic) :
    topicLE a b = true ↔ b.topic_score ≤ a.topic_score := by
  rw [topicLE, decide_eq_true_iff]

/-! ## `maxVolume` with one record replaced -/

theorem maxVolume_middle (pre post : List QueryWithEmbedding)
    (q : QueryWithEmbedding) :
    maxVolume (pre ++ q :: post) =
      max (demandKey q.toEnrichedQuery) (maxVolume (pre ++ post)) := by
  induction pre with
  | nil =>
      rw [List.nil_append, List.nil_append, maxVolume, maxVolume,
        List.map_cons, List.foldr_cons]
  | cons p pre ih =>
      rw [List.cons_append, List.cons_append, maxVolume, maxVolume,
        List.map_cons, List.map_cons, List.foldr_cons, List.foldr_cons]
      rw [maxVolume, maxVolume] at ih
      rw [ih, max_left_comm]

/-! ## Helper facts for the claim theorems -/

theorem scoreDescLE_of_const (qs : List ScoredQuery) (c : ℝ)
    (h : ∀ q ∈ qs, q.query_score = c) (a b : ℕ)
    (ha : a < qs.length) (hb : b < qs.length) : scoreDescLE qs a b = true := by
  have hga : (qs.getD a default).query_score = c := h _ (elemAt_mem qs a ha)
  have hgb : (qs.getD b default).query_score = c := h _ (elemAt_mem qs b hb)
  exact decide_eq_true (by rw [hga, hgb])

theorem sortedIndices_of_const (qs : List ScoredQuery) (c : ℝ)
    (h : ∀ q ∈ qs, q.query_score = c) :
    sortedIndices qs = List.range qs.length := by
  refine jsSortWith_of_all _ _ ?_
  intro a ha b hb
  exact scoreDescLE_of_const qs c h a b (List.mem_range.mp ha) (List.mem_range.mp hb)

/-! ## Claim theorems -/

/-- C10: for every query record, the per-query confidence computed by
`calculateQueryConfidence` lies in [0.2, 0.6] — the base 0.2 plus at most
0.2 (has-demand) + 0.1 (discovered source) + 0.1 (clear intent) — so the
`Math.min(·, 1)` cap is never the binding constraint. -/
theorem C10_confidence_in_02_06 (q : QueryWithEmbedding) :
    0.2 ≤ calculateQueryConfidence q ∧ calculateQueryConfidence q ≤ 0.6 ∧
    calculateQueryConfidence q = rawQueryConfidence q := by
  refine ⟨?_, ?_, calculateQueryConfidence_eq_raw q⟩
  · rw [calculateQueryConfidence_eq_raw]
    exact (rawQueryConfidence_bounds q).1
  · rw [calculateQueryConfidence_eq_raw]
    exact (rawQueryConfidence_bounds q).2

/-- C9: `cosineSimilarity` is a total function (it is defined for every
pair of rational vectors) and returns exactly 0 whenever the vectors have
different lengths, are empty, or either has zero norm. -/
theorem C9_cosine_zero_on_degenerate (a b : List ℚ)
    (h : a.length ≠ b.length ∨ a = [] ∨ b = [] ∨
         sumSquares a = 0 ∨ sumSquares b = 0) :
    cosineSimilarity a b = 0 := by
  rcases h with h | h | h | h | h
  · exact cosineSimilarity_ne_length a b h
  · exact cosineSimilarity_nil_length a b (by rw [h]; rfl)
  · by_cases hlen : a.length = b.length
    · exact cosineSimilarity_nil_length a b (by rw [hlen, h]; rfl)
    · exact cosineSimilarity_ne_length a b hlen
  · exact cosineSimilarity_zero_norm a b (Or.inl h)
  · exact cosineSimilarity_zero_norm a b (Or.inr h)

/-- Witness for C9 at concrete inputs: a length mismatch and a zero-norm
pair both give exactly 0. -/
theorem C9_witness :
    ([1] : List ℚ).length ≠ ([1, 2] : List ℚ).length ∧
    cosineSimilarity [1] [1, 2] = 0 ∧
    sumSquares ([0, 0] : List ℚ) = 0 ∧
    cosineSimilarity [0, 0] [3, 4] = 0 :=
  ⟨by decide,
   C9_cosine_zero_on_degenerate [1] [1, 2] (Or.inl (by decide)),
   by norm_num [sumSquares],
   C9_cosine_zero_on_degenerate [0, 0] [3, 4]
     (Or.inr (Or.inr (Or.inr (Or.inl (by norm_num [sumSquares])))))⟩

/-- C1 counterexample: the claim says a query with `brand_affinity = 0.0`
(and floor 0.25) ends up with final score exactly `0.25 ×` its un-gated
`query_score`.  In the code no gating multiplier exists: `qGated` carries
`brand_affinity = some 0`, its composite `query_score` is `0.00037`, and the
emitted score equals the un-gated composite, not a quarter of it. -/
theorem C1_cex :
    qGated.brand_affinity = some 0 ∧
    ((calculateQueryScores [qGated] []).map (fun r => r.query_score))
      = [(0.00037 : ℝ)] ∧
    (0.00037 : ℝ) ≠ 0.25 * (0.00037 : ℝ) := by
  refine ⟨rfl, ?_, by norm_num⟩
  rw [calculateQueryScores]
  rw [show maxVolume [qGated] = 1 from by decide]
  rw [List.map_cons, List.map_nil, List.map_cons, List.map_nil]
  rw [show (scoreQuery 1 [] qGated).query_score =
    compositeScore (volumeScoreOf qGated.toEnrichedQuery 1)
      (relevanceScoreOf qGated.embedding [])
      (if qGated.source = "paa" then (1.0 : ℝ) else 0.0)
      (getIntentWeight (jsIntentOf qGated.intent))
    from rfl]
  rw [show (if qGated.source = "paa" then (1.0 : ℝ) else 0.0) = 0.0 from
    if_neg (by decide)]
  rw [show jsIntentOf qGated.intent = "informational" from rfl]
  rw [show volumeScoreOf qGated.toEnrichedQuery 1 = 0 from by
    rw [volumeScoreOf, if_neg]
    decide]
  rw [show relevanceScoreOf qGated.embedding [] = 0.5 from rfl]
  rw [show getIntentWeight "informational" = 0.6 from by
    simp [getIntentWeight]]
  rw [compositeScore]
  norm_num

/-- C1 (amended): `addBrandAffinityToQueries` attaches brand-affinity data
to query records, but the scoring engine applies no gating multiplier:
`query_score` is independent of the `brand_affinity` field, so a query with
`brand_affinity = 0.0` keeps exactly its un-gated composite score (an
effective factor of 1, not `floor + (1-floor)·affinity`). -/
theorem C1_scores_ignore_brand_affinity (qs : List QueryWithEmbedding)
    (cEmb : List ℚ) (f : QueryWithEmbedding → Option ℝ) :
    ((calculateQueryScores (qs.map (fun q => setAffinity (f q) q)) cEmb).map
      (fun r => r.query_score)) =
    ((calculateQueryScores qs cEmb).map (fun r => r.query_score)) := by
  rw [calculateQueryScores, calculateQueryScores]
  simp only [List.map_map]
  have h1 : maxVolume (qs.map (fun q => setAffinity (f q) q)) = maxVolume qs := by
    rw [maxVolume, maxVolume, List.map_map]
    rfl
  rw [h1]
  exact List.map_congr_left (fun q _ => rfl)

/-- C3 counterexample: the claim says absent demand compares as −1, so a
colliding record with demand present-but-zero beats a first-seen record with
absent demand.  In the code the comparison is
`(q.volume_monthly || 0) > (existing.volume_monthly || 0)`: absent demand
counts as 0, the comparison ties, and the first-seen absent-demand record
survives — here the survivor of the collision is the record with
`volume_monthly = none`, not the present-but-zero one. -/
theorem C3_cex :
    normalizeQuery qAbsentDemand.query = normalizeQuery qZeroDemand.query ∧
    normalizeQuery qAbsentDemand.query ≠ "" ∧
    qAbsentDemand.volume_monthly = none ∧
    qZeroDemand.volume_monthly = some 0 ∧
    (normalizeAndDedupe [qAbsentDemand, qZeroDemand]).map
      (fun r => (r.query_original, r.volume_monthly))
      = [(qAbsentDemand.query, none)] := by
  decide

/-- C3 (amended): deduplication keeps exactly one record per distinct
non-empty normalized text, and on a collision the survivor is the record
with strictly greater demand where ABSENT DEMAND COMPARES AS 0 (not −1), so
a present-but-zero record merely ties with an absent-demand record and the
first-seen record wins ties: the per-text survivor is exactly `specSurvivor`
of the collision group, a member of the group whose demand (`getD 0`) is
maximal. -/
theorem C3_amended (qs : List EnrichedQuery) (t : String) (ht : t ≠ "") :
    ((normalizeAndDedupe qs).map (fun r => r.query_normalized)).Nodup ∧
    (normalizeAndDedupe qs).filter (fun r => r.query_normalized = t) =
      ((specSurvivor (qs.filter (fun q => normalizeQuery q.query = t))).map
        (fun w => mkNormalized w t)).toList ∧
    (∀ w, specSurvivor (qs.filter (fun q => normalizeQuery q.query = t))
        = some w →
      w ∈ qs.filter (fun q => normalizeQuery q.query = t) ∧
      ∀ y ∈ qs.filter (fun q => normalizeQuery q.query = t),
        demandKey y ≤ demandKey w) := by
  refine ⟨normalizeAndDedupe_nodup qs, normalizeAndDedupe_char qs t ht, ?_⟩
  intro w hw
  exact ⟨specSurvivor_mem _ w hw, specSurvivor_max _ w hw⟩

/-- Witness for C3 (amended) at the collision scenario: the normalized text
is non-empty and the characterization applies. -/
theorem C3_amended_witness :
    ((normalizeAndDedupe [qAbsentDemand, qZeroDemand]).map
      (fun r => r.query_normalized)).Nodup ∧
    (normalizeAndDedupe [qAbsentDemand, qZeroDemand]).filter
      (fun r => r.query_normalized = "gymshark return policy") =
      ((specSurvivor ([qAbsentDemand, qZeroDemand].filter
          (fun q => normalizeQuery q.query = "gymshark return policy"))).map
        (fun w => mkNormalized w "gymshark return policy")).toList ∧
    (∀ w, specSurvivor ([qAbsentDemand, qZeroDemand].filter
          (fun q => normalizeQuery q.query = "gymshark return policy"))
        = some w →
      w ∈ [qAbsentDemand, qZeroDemand].filter
        (fun q => normalizeQuery q.query = "gymshark return policy") ∧
      ∀ y ∈ [qAbsentDemand, qZeroDemand].filter
          (fun q => normalizeQuery q.query = "gymshark return policy"),
        demandKey y ≤ demandKey w) :=
  C3_amended [qAbsentDemand, qZeroDemand] "gymshark return policy" (by decide)

/-- C7: within each emitted topic the members are the cluster's queries
sorted primarily by raw demand descending with a −1 sentinel for records
lacking demand (so they land after every record with demand, including
demand 0), secondarily by `query_score` descending; `topic_score` is the
sum of demand (0 when absent) over the first 5 members of that ordering;
and the [18200, absent, 5400] scenario orders as [18200, 5400, absent]. -/
theorem C7_member_order_and_topic_score :
    (∀ (c : ClusterResult),
      List.Perm (jsSortWith memberLE c.queries) c.queries) ∧
    (∀ (c : ClusterResult),
      (jsSortWith memberLE c.queries).Pairwise (fun a b =>
        memberSortKey b < memberSortKey a ∨
        (memberSortKey b = memberSortKey a ∧
         b.query_score ≤ a.query_score))) ∧
    (∀ (q : ScoredQuery),
      memberSortKey q = if q.has_volume then demandKey q.toEnrichedQuery
        else -1) ∧
    (∀ (labelOf : List ScoredQuery → String) (c : ClusterResult),
      (mkTopic labelOf c).topic_score =
        (((jsSortWith memberLE c.queries).take 5).map
          (fun q => demandKey q.toEnrichedQuery)).sum ∧
      (mkTopic labelOf c).top_queries =
        ((jsSortWith memberLE c.queries).take 10).map formatQueryResult) ∧
    ((jsSortWith memberLE [qDemandHigh, qDemandAbsent, qDemandMid]).map
      (fun q => q.volume_monthly) = [some 18200, some 5400, none]) := by
  refine ⟨fun c => jsSortWith_perm memberLE c.queries, ?_, fun q => rfl,
    fun labelOf c => ⟨rfl, rfl⟩, ?_⟩
  · intro c
    have h := jsSortWith_sorted memberLE memberLE_trans memberLE_total
      c.queries
    exact h.imp (fun hab => (memberLE_iff _ _).mp hab)
  · rfl

set_option maxHeartbeats 4000000

set_option maxRecDepth 4000

/-- C4 counterexample: the claim says the cluster count never exceeds the
cap (15 in vector mode).  In `clusterByEmbeddings` a seed whose embedding
is missing or empty pushes a singleton cluster and `continue`s BEFORE the
`if (clusters.length >= 15) break` check, so the cap is only tested on the
embedded path: this 16-query batch (15 queries without embeddings plus one
with, so vector mode is selected) produces 16 clusters. -/
theorem C4_cex :
    capBatch.any hasEmbedding = true ∧
    clusterQueriesWithEmbeddings capBatch = clusterByEmbeddings capBatch ∧
    (clusterByEmbeddings capBatch).length = 16 ∧
    ¬ ((clusterByEmbeddings capBatch).length ≤ 15) := by
  have hconst : ∀ q ∈ capBatch, q.query_score = 0 := by
    intro q hq
    simp only [capBatch, List.mem_cons, List.not_mem_nil, or_false] at hq
    rcases hq with rfl | rfl | rfl | rfl | rfl | rfl | rfl | rfl | rfl |
      rfl | rfl | rfl | rfl | rfl | rfl | rfl <;> rfl
  have hlen : (clusterByEmbeddings capBatch).length = 16 := by
    rw [clusterByEmbeddings]
    rw [sortedIndices_of_const capBatch 0 hconst]
    norm_num [capBatch, List.range_succ]
    norm_num [seedStep, singletonState, embedSeedState, remainderStep,
      placeLeftover, leftoverBest, gatherStep, noEmbQ, embQ,
      calculateCentroid, List.range_succ, List.getD, List.contains]
  refine ⟨by decide, ?_, hlen, by rw [hlen]; norm_num⟩
  rw [clusterQueriesWithEmbeddings, if_pos]
  decide

set_option maxHeartbeats 200000

set_option maxRecDepth 512

/-- C4 (amended): in both clustering modes every input query lands in
exactly one cluster (the concatenation of the clusters is a permutation of
the input) and no cluster is empty; the 15-cluster cap holds in vector mode
WHEN EVERY QUERY HAS A USABLE EMBEDDING (it can be exceeded otherwise, see
the counterexample), and keyword mode emits at most 9 clusters (8 buckets
plus the catch-all). -/
theorem C4_amended (qs : List ScoredQuery) :
    List.Perm (clustersFlat (clusterByEmbeddings qs)) qs ∧
    (∀ c ∈ clusterByEmbeddings qs, c.queries ≠ []) ∧
    ((∀ q ∈ qs, hasEmbedding q = true) →
      (clusterByEmbeddings qs).length ≤ 15) ∧
    List.Perm (clustersFlat (clusterByKeywords qs)) qs ∧
    (∀ c ∈ clusterByKeywords qs, c.queries ≠ []) ∧
    (clusterByKeywords qs).length ≤ 9 :=
  ⟨clusterByEmbeddings_partition qs, clusterByEmbeddings_nonempty qs,
   fun h => clusterByEmbeddings_cap qs h,
   clusterByKeywords_partition qs, clusterByKeywords_nonempty qs,
   clusterByKeywords_card qs⟩

/-- Witness for C4 (amended) at a concrete all-embedded batch. -/
theorem C4_amended_witness :
    (clusterByEmbeddings [embQ "a"]).length ≤ 15 ∧
    (clusterByKeywords [embQ "a"]).length ≤ 9 :=
  ⟨(C4_amended [embQ "a"]).2.2.1 (by decide),
   (C4_amended [embQ "a"]).2.2.2.2.2⟩

/-! ## Bounds helpers for C5 -/

theorem list_mean_bounds (l : List ℝ) (h : ∀ x ∈ l, 0 ≤ x ∧ x ≤ 1)
    (hl : 0 < l.length) : 0 ≤ l.sum / l.length ∧ l.sum / l.length ≤ 1 := by
  have hlen : (0 : ℝ) < l.length := by exact_mod_cast hl
  constructor
  · exact div_nonneg (List.sum_nonneg (fun x hx => (h x hx).1)) hlen.le
  · rw [div_le_one hlen]
    calc l.sum ≤ l.length • (1 : ℝ) :=
          List.sum_le_card_nsmul l 1 (fun x hx => (h x hx).2)
      _ = l.length := by simp

theorem jsRound_pct_bounds (x : ℝ) (h0 : 0 ≤ x) (h1 : x ≤ 1) :
    0 ≤ (jsRound (x * 100) : ℝ) / 100 ∧ (jsRound (x * 100) : ℝ) / 100 ≤ 1 := by
  have hlo : (0 : ℤ) ≤ jsRound (x * 100) := by
    rw [jsRound]
    exact Int.le_floor.mpr (by push_cast; linarith)
  have hhi : jsRound (x * 100) ≤ 100 := by
    have : jsRound (x * 100) < 101 := by
      rw [jsRound]
      exact Int.floor_lt.mpr (by push_cast; linarith)
    omega
  constructor
  · exact div_nonneg (by exact_mod_cast hlo) (by norm_num)
  · rw [div_le_one (by norm_num)]
    have : (jsRound (x * 100) : ℝ) ≤ (100 : ℤ) := by exact_mod_cast hhi
    simpa using this

theorem clamp01_bounds (x : ℝ) : 0 ≤ clamp01 x ∧ clamp01 x ≤ 1 := by
  rw [clamp01]
  exact ⟨le_max_left 0 _, max_le (by norm_num) (min_le_left 1 x)⟩

/-- The average-confidence expression of `mkTopic` stays in `[0, 1]` when
every member's per-query confidence does. -/
theorem mkTopic_confidence_bounds (labelOf : List ScoredQuery → String)
    (c : ClusterResult)
    (h : ∀ q ∈ c.queries, 0 ≤ q.confidence ∧ q.confidence ≤ 1) :
    0 ≤ (mkTopic labelOf c).confidence ∧ (mkTopic labelOf c).confidence ≤ 1 := by
  have hconf : (mkTopic labelOf c).confidence =
      (jsRound ((if ((jsSortWith memberLE c.queries).take 10).length > 0 then
          (((jsSortWith memberLE c.queries).take 10).map
            (fun q => q.confidence)).sum /
            ((((jsSortWith memberLE c.queries).take 10).length : ℕ) : ℝ)
        else 0.2) * 100) : ℝ) / 100 := rfl
  rw [hconf]
  by_cases hl : ((jsSortWith memberLE c.queries).take 10).length > 0
  · rw [if_pos hl]
    have hmem : ∀ x ∈ ((jsSortWith memberLE c.queries).take 10).map
        (fun q => q.confidence), 0 ≤ x ∧ x ≤ 1 := by
      intro x hx
      rcases List.mem_map.mp hx with ⟨q, hq, rfl⟩
      have hq2 : q ∈ c.queries :=
        (jsSortWith_perm memberLE c.queries).mem_iff.mp
          (List.take_subset 10 _ hq)
      exact h q hq2
    have hlen : 0 < (((jsSortWith memberLE c.queries).take 10).map
        (fun q => q.confidence)).length := by
      rw [List.length_map]
      exact hl
    have hmean := list_mean_bounds _ hmem hlen
    rw [List.length_map] at hmean
    exact jsRound_pct_bounds _ hmean.1 hmean.2
  · rw [if_neg hl]
    exact jsRound_pct_bounds 0.2 (by norm_num) (by norm_num)

/-- C5: score bounds.  For inputs with non-negative demand, every record
emitted by `calculateQueryScores` has `volume_score`, `relevance_score` and
per-query `confidence` in `[0, 1]` (even with negative-cosine vectors and
missing or empty intent); `computeBrandAffinityScore` always lands in
`[0, 1]`; the spec's gating factor `floor + (1 - floor) * brand_affinity`
lies in `[0, 1]` whenever `floor` and the affinity do; and each topic's
confidence emitted by `labelAndRankClusters` lies in `[0, 1]` when the
members' confidences do. -/
theorem C5_score_bounds (qs : List QueryWithEmbedding) (cEmb : List ℚ)
    (hdemand : ∀ q ∈ qs, 0 ≤ demandKey q.toEnrichedQuery)
    (labelOf : List ScoredQuery → String) (clusters : List ClusterResult)
    (hconf : ∀ c ∈ clusters, ∀ q ∈ c.queries,
      0 ≤ q.confidence ∧ q.confidence ≤ 1)
    (domainRank : Option ℕ) (mentionCount : ℕ) (floor a : ℝ)
    (hfloor : 0 ≤ floor ∧ floor ≤ 1) (ha : 0 ≤ a ∧ a ≤ 1) :
    (∀ r ∈ calculateQueryScores qs cEmb,
      (0 ≤ r.volume_score ∧ r.volume_score ≤ 1) ∧
      (0 ≤ r.relevance_score ∧ r.relevance_score ≤ 1) ∧
      (0 ≤ r.confidence ∧ r.confidence ≤ 1)) ∧
    (0 ≤ computeBrandAffinityScore domainRank mentionCount ∧
      computeBrandAffinityScore domainRank mentionCount ≤ 1) ∧
    (0 ≤ gatingFactor floor a ∧ gatingFactor floor a ≤ 1) ∧
    (∀ t ∈ labelAndRankClusters labelOf clusters,
      0 ≤ t.confidence ∧ t.confidence ≤ 1) := by
  refine ⟨?_, ?_, ?_, ?_⟩
  · intro r hr
    rw [calculateQueryScores] at hr
    rcases List.mem_map.mp hr with ⟨q, hq, rfl⟩
    refine ⟨?_, ?_, ?_⟩
    · exact volumeScoreOf_bounds q.toEnrichedQuery (maxVolume qs)
        (hdemand q hq) (maxVolume_ge qs q hq) (maxVolume_ge_one qs)
    · exact relevanceScoreOf_bounds q.embedding cEmb
    · have hb := rawQueryConfidence_bounds q
      have he : (scoreQuery (maxVolume qs) cEmb q).confidence =
          rawQueryConfidence q := calculateQueryConfidence_eq_raw q
      rw [he]
      exact ⟨by linarith [hb.1], by linarith [hb.2]⟩
  · exact clamp01_bounds _
  · rw [gatingFactor]
    constructor
    · nlinarith [ha.1, ha.2, hfloor.1, hfloor.2]
    · nlinarith [ha.1, ha.2, hfloor.1, hfloor.2]
  · intro t ht
    rw [labelAndRankClusters] at ht
    have ht2 : t ∈ jsSortWith topicLE (clusters.map (mkTopic labelOf)) :=
      List.take_subset 10 _ ht
    have ht3 : t ∈ clusters.map (mkTopic labelOf) :=
      (jsSortWith_perm topicLE _).mem_iff.mp ht2
    rcases List.mem_map.mp ht3 with ⟨c, hc, rfl⟩
    exact mkTopic_confidence_bounds labelOf c (hconf c hc)

/-- Witness for C5 at concrete inputs. -/
theorem C5_witness :
    (0 ≤ gatingFactor 0.25 0 ∧ gatingFactor 0.25 0 ≤ 1) ∧
    (0 ≤ computeBrandAffinityScore none 0 ∧
      computeBrandAffinityScore none 0 ≤ 1) := by
  have h := C5_score_bounds [qGated] [] (by decide) (fun _ => "t") []
    (by simp) none 0 0.25 0 (by norm_num) (by norm_num)
  exact ⟨h.2.2.1, h.2.1⟩

/-! ## Helpers for C6 -/

theorem getD_append_length {α : Type} (l1 l2 : List α) (a d : α) :
    (l1 ++ a :: l2).getD l1.length d = a := by
  induction l1 with
  | nil => rfl
  | cons x l1 ih => simpa using ih

theorem scored_at_middle (pre post : List QueryWithEmbedding)
    (x : QueryWithEmbedding) (cEmb : List ℚ) :
    (calculateQueryScores (pre ++ x :: post) cEmb).getD pre.length default =
      scoreQuery (maxVolume (pre ++ x :: post)) cEmb x := by
  rw [calculateQueryScores, List.map_append, List.map_cons]
  rw [show pre.length = (pre.map
    (scoreQuery (maxVolume (pre ++ x :: post)) cEmb)).length from
    (List.length_map pre _).symm]
  exact getD_append_length _ _ _ _

/-- The volume-score comparison behind the demand-increase monotonicity:
raising the record's demand raises (or keeps) its volume score even though
the shared `maxVolume` denominator moves with it. -/
theorem volumeScore_demand_mono (pre post : List QueryWithEmbedding)
    (q : QueryWithEmbedding) (w w' : ℚ) (h0 : 0 ≤ w) (hw : w ≤ w') :
    volumeScoreOf (setVolume w q).toEnrichedQuery
        (maxVolume (pre ++ setVolume w q :: post)) ≤
      volumeScoreOf (setVolume w' q).toEnrichedQuery
        (maxVolume (pre ++ setVolume w' q :: post)) := by
  have hM1 : maxVolume (pre ++ setVolume w q :: post) =
      max (maxVolume (pre ++ post)) w := by
    rw [maxVolume_middle]
    rw [show demandKey (setVolume w q).toEnrichedQuery = w from rfl]
    exact max_comm w _
  have hM2 : maxVolume (pre ++ setVolume w' q :: post) =
      max (maxVolume (pre ++ post)) w' := by
    rw [maxVolume_middle]
    rw [show demandKey (setVolume w' q).toEnrichedQuery = w' from rfl]
    exact max_comm w' _
  have hMo : 1 ≤ maxVolume (pre ++ post) := maxVolume_ge_one _
  by_cases hhv : q.has_volume
  · by_cases hz : w = 0
    · have hcondL : hasVolumeValue (setVolume w q).toEnrichedQuery = false := by
        rw [show hasVolumeValue (setVolume w q).toEnrichedQuery =
          (q.has_volume && decide (w ≠ 0)) from rfl, hz]
        simp
      rw [volumeScoreOf, hcondL]
      rw [if_neg (by simp)]
      have hb := volumeScoreOf_bounds (setVolume w' q).toEnrichedQuery
        (maxVolume (pre ++ setVolume w' q :: post))
        (show (0 : ℚ) ≤ w' from le_trans h0 hw)
        (maxVolume_ge _ (setVolume w' q)
          (List.mem_append.mpr (Or.inr (List.mem_cons_self _ _))))
        (maxVolume_ge_one _)
      exact hb.1
    · have hz' : w' ≠ 0 := by
        intro h
        exact hz (le_antisymm (h ▸ hw) h0)
      have hcondL : hasVolumeValue (setVolume w q).toEnrichedQuery = true := by
        rw [show hasVolumeValue (setVolume w q).toEnrichedQuery =
          (q.has_volume && decide (w ≠ 0)) from rfl]
        simp [hhv, hz]
      have hcondR : hasVolumeValue (setVolume w' q).toEnrichedQuery = true := by
        rw [show hasVolumeValue (setVolume w' q).toEnrichedQuery =
          (q.has_volume && decide (w' ≠ 0)) from rfl]
        simp [hhv, hz']
      rw [volumeScoreOf, volumeScoreOf, hcondL, hcondR]
      rw [if_pos rfl, if_pos rfl]
      rw [show demandKey (setVolume w q).toEnrichedQuery = w from rfl]
      rw [show demandKey (setVolume w' q).toEnrichedQuery = w' from rfl]
      rw [hM1, hM2]
      exact log1p_ratio_mono w w' (maxVolume (pre ++ post)) h0 hw hMo
  · have hcondL : hasVolumeValue (setVolume w q).toEnrichedQuery = false := by
      rw [show hasVolumeValue (setVolume w q).toEnrichedQuery =
        (q.has_volume && decide (w ≠ 0)) from rfl]
      simp [hhv]
    have hcondR : hasVolumeValue (setVolume w' q).toEnrichedQuery = false := by
      rw [show hasVolumeValue (setVolume w' q).toEnrichedQuery =
        (q.has_volume && decide (w' ≠ 0)) from rfl]
      simp [hhv]
    rw [volumeScoreOf, volumeScoreOf, hcondL, hcondR]
    rw [if_neg (by simp), if_neg (by simp)]

/-- C6: `query_score` is monotonically non-decreasing in `volume_score` and
`relevance_score` with the other components fixed, and raising one record's
demand (everything else fixed, including the other records) never lowers
that record's emitted `query_score` — even though the shared `maxVolume`
normalizer moves with the raised demand. -/
theorem C6_monotonicity (v v' r r' s i : ℝ) (hv : v ≤ v') (hr : r ≤ r')
    (pre post : List QueryWithEmbedding) (q : QueryWithEmbedding)
    (cEmb : List ℚ) (w w' : ℚ) (h0 : 0 ≤ w) (hw : w ≤ w') :
    compositeScore v r s i ≤ compositeScore v' r' s i ∧
    ((calculateQueryScores (pre ++ setVolume w q :: post) cEmb).getD
        pre.length default).query_score ≤
      ((calculateQueryScores (pre ++ setVolume w' q :: post) cEmb).getD
        pre.length default).query_score := by
  refine ⟨compositeScore_mono v v' r r' s i hv hr, ?_⟩
  rw [scored_at_middle, scored_at_middle]
  rw [show (scoreQuery (maxVolume (pre ++ setVolume w q :: post)) cEmb
      (setVolume w q)).query_score =
    compositeScore
      (volumeScoreOf (setVolume w q).toEnrichedQuery
        (maxVolume (pre ++ setVolume w q :: post)))
      (relevanceScoreOf q.embedding cEmb)
      (if q.source = "paa" then (1.0 : ℝ) else 0.0)
      (getIntentWeight (jsIntentOf q.intent)) from rfl]
  rw [show (scoreQuery (maxVolume (pre ++ setVolume w' q :: post)) cEmb
      (setVolume w' q)).query_score =
    compositeScore
      (volumeScoreOf (setVolume w' q).toEnrichedQuery
        (maxVolume (pre ++ setVolume w' q :: post)))
      (relevanceScoreOf q.embedding cEmb)
      (if q.source = "paa" then (1.0 : ℝ) else 0.0)
      (getIntentWeight (jsIntentOf q.intent)) from rfl]
  exact compositeScore_mono _ _ _ _ _ _
    (volumeScore_demand_mono pre post q w w' h0 hw) le_rfl

/-- Witness for C6 at concrete inputs. -/
theorem C6_witness :
    compositeScore 0 0 0 0 ≤ compositeScore 1 1 0 0 ∧
    ((calculateQueryScores [setVolume 0 qGated] []).getD 0 default).query_score ≤
      ((calculateQueryScores [setVolume 5 qGated] []).getD 0 default).query_score := by
  have h := C6_monotonicity 0 1 0 1 0 0 (by norm_num) (by norm_num)
    [] [] qGated [] 0 5 (by norm_num) (by norm_num)
  exact h

set_option maxHeartbeats 4000000

set_option maxRecDepth 8000

/-- C2 counterexample: clustering itself is lossless, but the final stage
truncates — `labelAndRankClusters` keeps at most 10 topics and at most 10
`top_queries` per topic.  This batch of 12 distinct queries (deduplicated
count 12, clustered in vector mode into 12 singleton clusters) comes out of
`clusterAndRank` re-emitting only 10 records in total, so two deduplicated
input records appear in no output topic. -/
theorem C2_cex :
    (normalizeAndDedupe c2Batch).length = 12 ∧
    ((clusterAndRank c2Embed [] (fun _ => "Topic") c2Batch).map
      (fun t => t.top_queries.length)).sum = 10 ∧
    (10 : ℕ) ≠ 12 := by
  refine ⟨by decide, ?_, by decide⟩
  have hemb : createEmbeddings c2Embed (normalizeAndDedupe c2Batch) = c2With := rfl
  rw [clusterAndRank, hemb]
  have hconst : ∀ q ∈ calculateQueryScores c2With [],
      q.query_score =
        compositeScore 0 0.5 0.0 (getIntentWeight (jsIntentOf none)) := by
    intro q hq
    rw [calculateQueryScores] at hq
    rcases List.mem_map.mp hq with ⟨x, hx, rfl⟩
    simp only [c2With, List.mem_cons, List.not_mem_nil, or_false] at hx
    rcases hx with rfl | rfl | rfl | rfl | rfl | rfl | rfl | rfl | rfl |
      rfl | rfl | rfl <;> rfl
  rw [clusterQueriesWithEmbeddings,
    if_pos (show (calculateQueryScores c2With []).any hasEmbedding = true
      from rfl)]
  rw [clusterByEmbeddings]
  rw [sortedIndices_of_const _ _ hconst]
  norm_num [calculateQueryScores, c2With, List.range_succ]
  norm_num [seedStep, singletonState, embedSeedState, remainderStep,
    placeLeftover, leftoverBest, gatherStep, calculateCentroid, scoreQuery,
    mkNormalized, mkPlainQuery, List.range_succ, List.getD, List.contains,
    labelAndRankClusters, mkTopic, topicLE, jsSortWith, insertSorted,
    memberSortKey, demandKey, List.length_map]

set_option maxHeartbeats 200000

set_option maxRecDepth 512

/-- C2 (amended): every input query record lands in exactly one cluster
(the concatenation of the clusters the pipeline builds is a permutation of
the scored input, in both clustering modes), but the output stage then
truncates: at most 10 topics are returned and each topic re-emits at most
its first 10 members as `top_queries`, so the total re-emitted count can be
smaller than the deduplicated input count (see the counterexample). -/
theorem C2_amended (qs : List ScoredQuery)
    (labelOf : List ScoredQuery → String) :
    List.Perm (clustersFlat (clusterQueriesWithEmbeddings qs)) qs ∧
    (labelAndRankClusters labelOf (clusterQueriesWithEmbeddings qs)).length
      ≤ 10 ∧
    (∀ t ∈ labelAndRankClusters labelOf (clusterQueriesWithEmbeddings qs),
      t.top_queries.length ≤ 10) := by
  refine ⟨?_, ?_, ?_⟩
  · rw [clusterQueriesWithEmbeddings]
    by_cases h : qs.any hasEmbedding
    · rw [if_pos h]
      exact clusterByEmbeddings_partition qs
    · rw [if_neg h]
      exact clusterByKeywords_partition qs
  · rw [labelAndRankClusters]
    exact List.length_take_le 10 _
  · intro t ht
    rw [labelAndRankClusters] at ht
    have ht2 : t ∈ jsSortWith topicLE
        ((clusterQueriesWithEmbeddings qs).map (mkTopic labelOf)) :=
      List.take_subset 10 _ ht
    have ht3 : t ∈ (clusterQueriesWithEmbeddings qs).map (mkTopic labelOf) :=
      (jsSortWith_perm topicLE _).mem_iff.mp ht2
    rcases List.mem_map.mp ht3 with ⟨c, hc, rfl⟩
    rw [show (mkTopic labelOf c).top_queries =
      ((jsSortWith memberLE c.queries).take 10).map formatQueryResult
      from rfl]
    rw [List.length_map]
    exact List.length_take_le 10 _

/-! ## Helpers for C8 -/

theorem hasEmbedding_none (q : ScoredQuery) (h : q.embedding = none) :
    hasEmbedding q = false := by
  rw [hasEmbedding, h]

/-- An input with at least one non-empty normalized text survives
deduplication. -/
theorem normalizeAndDedupe_ne_nil (qs : List EnrichedQuery)
    (hne : ∃ q ∈ qs, normalizeQuery q.query ≠ "") :
    normalizeAndDedupe qs ≠ [] := by
  rcases hne with ⟨q, hq, hqt⟩
  intro hnil
  have hchar := normalizeAndDedupe_char qs (normalizeQuery q.query) hqt
  rw [hnil] at hchar
  have hmem : q ∈ qs.filter
      (fun x => normalizeQuery x.query = normalizeQuery q.query) :=
    List.mem_filter.mpr ⟨hq, by simp⟩
  cases hgrp : qs.filter
      (fun x => normalizeQuery x.query = normalizeQuery q.query) with
  | nil => rw [hgrp] at hmem; cases hmem
  | cons a g =>
      rw [hgrp] at hchar
      cases hs : specSurvivor (a :: g) with
      | none => exact specSurvivor_ne_none a g hs
      | some w =>
          rw [hs] at hchar
          simp at hchar

/-- C8 counterexample: the claim promises at least one non-empty topic for
EVERY non-empty vectorless batch, but a non-empty batch whose only query
normalizes to the empty string (here "??", which normalization strips
bare) is dropped entirely by deduplication and the pipeline returns zero
topics. -/
theorem C8_cex :
    ([mkPlainQuery "??"] : List EnrichedQuery) ≠ [] ∧
    normalizeQuery (mkPlainQuery "??").query = "" ∧
    clusterAndRank (fun _ => none) [] (fun _ => "Topic")
      [mkPlainQuery "??"] = [] := by
  refine ⟨List.cons_ne_nil _ _, by decide, ?_⟩
  rfl

/-- C8 (amended): with no embedding collaborator (`embedOf` always `none`)
every scored record's `relevance_score` is the neutral 0.5, clustering
dispatches to the deterministic keyword fallback, a normalized text
containing "return" matches the first table bucket "returns", and — for a
batch with at least one query whose NORMALIZED text is non-empty (the
counterexample shows plain non-emptiness is not enough) — the pipeline
returns at least one topic and every returned topic re-emits at least one
query. -/
theorem C8_amended (embedOf : String → Option (List ℚ)) (cEmb : List ℚ)
    (labelOf : List ScoredQuery → String) (qs : List EnrichedQuery)
    (hemb : ∀ t, embedOf t = none)
    (hne : ∃ q ∈ qs, normalizeQuery q.query ≠ "") :
    (∀ r ∈ calculateQueryScores
        (createEmbeddings embedOf (normalizeAndDedupe qs)) cEmb,
      r.relevance_score = 0.5) ∧
    clusterQueriesWithEmbeddings (calculateQueryScores
        (createEmbeddings embedOf (normalizeAndDedupe qs)) cEmb) =
      clusterByKeywords (calculateQueryScores
        (createEmbeddings embedOf (normalizeAndDedupe qs)) cEmb) ∧
    (∀ text : String, strContains text "return" = true →
      findBucket text = some "returns") ∧
    clusterAndRank embedOf cEmb labelOf qs ≠ [] ∧
    (∀ t ∈ clusterAndRank embedOf cEmb labelOf qs,
      t.top_queries ≠ []) := by
  have hembnone : ∀ x ∈ createEmbeddings embedOf (normalizeAndDedupe qs),
      x.embedding = none := by
    intro x hx
    rw [createEmbeddings] at hx
    rcases List.mem_map.mp hx with ⟨nq, _, rfl⟩
    exact hemb nq.query_normalized
  have hscorednone : ∀ r ∈ calculateQueryScores
      (createEmbeddings embedOf (normalizeAndDedupe qs)) cEmb,
      r.embedding = none := by
    intro r hr
    rw [calculateQueryScores] at hr
    rcases List.mem_map.mp hr with ⟨x, hx, rfl⟩
    exact hembnone x hx
  have hany : (calculateQueryScores
      (createEmbeddings embedOf (normalizeAndDedupe qs)) cEmb).any
      hasEmbedding = false := by
    rw [List.any_eq_false]
    intro r hr
    rw [hasEmbedding_none r (hscorednone r hr)]
    exact Bool.false_ne_true
  have hdisp : clusterQueriesWithEmbeddings (calculateQueryScores
      (createEmbeddings embedOf (normalizeAndDedupe qs)) cEmb) =
      clusterByKeywords (calculateQueryScores
        (createEmbeddings embedOf (normalizeAndDedupe qs)) cEmb) := by
    rw [clusterQueriesWithEmbeddings, if_neg]
    rw [hany]
    exact Bool.false_ne_true
  have hscored_ne : calculateQueryScores
      (createEmbeddings embedOf (normalizeAndDedupe qs)) cEmb ≠ [] := by
    intro h
    have hlen := congrArg List.length h
    rw [calculateQueryScores, List.length_map, createEmbeddings,
      List.length_map] at hlen
    exact normalizeAndDedupe_ne_nil qs hne (List.length_eq_zero.mp hlen)
  refine ⟨?_, hdisp, ?_, ?_, ?_⟩
  · intro r hr
    rw [calculateQueryScores] at hr
    rcases List.mem_map.mp hr with ⟨x, hx, rfl⟩
    have hx2 := hembnone x hx
    rw [show (scoreQuery (maxVolume (createEmbeddings embedOf
        (normalizeAndDedupe qs))) cEmb x).relevance_score =
      relevanceScoreOf x.embedding cEmb from rfl, hx2]
    rfl
  · intro text h
    rw [findBucket]
    rw [show topicKeywords =
      ("returns", ["return", "refund", "exchange", "money back"]) ::
      [("shipping", ["shipping", "delivery", "ship", "arrive", "tracking", "order"]),
       ("sizing", ["size", "sizing", "fit", "small", "large", "tight", "loose"]),
       ("discounts", ["discount", "code", "coupon", "promo", "sale", "deal", "black friday"]),
       ("stores", ["store", "location", "near me", "where", "buy", "shop"]),
       ("quality", ["quality", "worth", "review", "good", "bad", "compare", "vs"]),
       ("products", ["leggings", "shorts", "shirt", "hoodie", "jacket", "bra"]),
       ("account", ["account", "login", "password", "sign in", "app"])] from rfl]
    rw [List.find?_cons_of_pos]
    · rfl
    · simp [h]
  · rw [clusterAndRank, hdisp]
    have hcl_ne : clusterByKeywords (calculateQueryScores
        (createEmbeddings embedOf (normalizeAndDedupe qs)) cEmb) ≠ [] := by
      intro h
      have hperm := clusterByKeywords_partition (calculateQueryScores
        (createEmbeddings embedOf (normalizeAndDedupe qs)) cEmb)
      rw [h] at hperm
      exact hscored_ne (hperm.nil_eq.symm)
    rw [labelAndRankClusters]
    intro h
    rcases (List.take_eq_nil_iff).mp h with h10 | hsort
    · cases h10
    · have hperm2 := jsSortWith_perm topicLE
        ((clusterByKeywords (calculateQueryScores
          (createEmbeddings embedOf (normalizeAndDedupe qs)) cEmb)).map
          (mkTopic labelOf))
      rw [hsort] at hperm2
      have hmapnil := hperm2.nil_eq.symm
      rw [List.map_eq_nil_iff] at hmapnil
      exact hcl_ne hmapnil
  · intro t ht
    rw [clusterAndRank, hdisp, labelAndRankClusters] at ht
    have ht2 := (jsSortWith_perm topicLE _).mem_iff.mp
      (List.take_subset 10 _ ht)
    rcases List.mem_map.mp ht2 with ⟨c, hc, rfl⟩
    have hcq := clusterByKeywords_nonempty _ c hc
    rw [show (mkTopic labelOf c).top_queries =
      ((jsSortWith memberLE c.queries).take 10).map formatQueryResult
      from rfl]
    intro h
    rw [List.map_eq_nil_iff] at h
    rcases (List.take_eq_nil_iff).mp h with h10 | hsort
    · cases h10
    · have hperm2 := jsSortWith_perm memberLE c.queries
      rw [hsort] at hperm2
      exact hcq hperm2.nil_eq.symm

/-- Witness for C8 (amended) at a concrete vectorless batch containing a
"return" query. -/
theorem C8_amended_witness :
    clusterAndRank (fun _ => none) [] (fun _ => "Topic")
      [mkPlainQuery "gymshark return policy"] ≠ [] ∧
    findBucket "gymshark return policy" = some "returns" := by
  have h := C8_amended (fun _ => none) [] (fun _ => "Topic")
    [mkPlainQuery "gymshark return policy"] (fun _ => rfl)
    ⟨mkPlainQuery "gymshark return policy", List.mem_cons_self _ _,
      by decide⟩
  exact ⟨h.2.2.2.1, h.2.2.1 "gymshark return policy" (by decide)⟩

end ClusterRank
